import Mathlib

/-!
Verification of the selective-disclosure SD-JWT payload engine
(`sd-jwt-payload`): a shallow embedding of the crate's disclosure codec,
object encoder/decoder, SD-JWT serializer and presentation builder,
with theorems checking the specification's claims against it.

Rust `String`/`str` values are embedded as byte lists (`Bytes`), exactly the
UTF-8 buffers the crate hashes, base64-encodes and JSON-parses; JSON numbers
are embedded as integers (the claims under scrutiny never hinge on float
formatting).  JSON objects are insertion-ordered association lists, matching
`serde_json`'s `preserve_order` maps used by the crate.
-/

set_option maxHeartbeats 1000000

namespace SdJwtModel

/-- Bytes of a UTF-8 string: each is a value in `[0, 255]`. -/
abbrev Bytes := List Nat

/-- UTF-8 bytes of a Lean character (used to write byte-string literals). -/
def charUtf8 (c : Char) : Bytes :=
  let n := c.toNat
  if n < 0x80 then [n]
  else if n < 0x800 then [0xC0 + n / 64, 0x80 + n % 64]
  else if n < 0x10000 then [0xE0 + n / 4096, 0x80 + n / 64 % 64, 0x80 + n % 64]
  else [0xF0 + n / 262144, 0x80 + n / 4096 % 64, 0x80 + n / 64 % 64, 0x80 + n % 64]

/-- UTF-8 bytes of a Lean string literal. -/
def bytes (s : String) : Bytes :=
  s.data.flatMap charUtf8

/-- The JSON data model (`serde_json::Value`), with numbers restricted to
integers.  Object member lists are insertion-ordered. -/
inductive Json where
  | null
  | bool (b : Bool)
  | num (n : Int)
  | str (s : Bytes)
  | arr (elems : List Json)
  | obj (members : List (Bytes × Json))
deriving Repr

mutual

/-- Decidable equality on JSON values (hand-rolled: the nested lists defeat
the automatic derivation). -/
def Json.decEq : (a b : Json) → Decidable (a = b)
  | .null, .null => isTrue rfl
  | .bool a, .bool b =>
    if h : a = b then isTrue (by rw [h]) else isFalse (by simp [h])
  | .num a, .num b =>
    if h : a = b then isTrue (by rw [h]) else isFalse (by simp [h])
  | .str a, .str b =>
    if h : a = b then isTrue (by rw [h]) else isFalse (by simp [h])
  | .arr a, .arr b =>
    match Json.decEqList a b with
    | isTrue h => isTrue (by rw [h])
    | isFalse h => isFalse (by simp [h])
  | .obj a, .obj b =>
    match Json.decEqMembers a b with
    | isTrue h => isTrue (by rw [h])
    | isFalse h => isFalse (by simp [h])
  | .null, .bool _ | .null, .num _ | .null, .str _ | .null, .arr _ | .null, .obj _
  | .bool _, .null | .bool _, .num _ | .bool _, .str _ | .bool _, .arr _ | .bool _, .obj _
  | .num _, .null | .num _, .bool _ | .num _, .str _ | .num _, .arr _ | .num _, .obj _
  | .str _, .null | .str _, .bool _ | .str _, .num _ | .str _, .arr _ | .str _, .obj _
  | .arr _, .null | .arr _, .bool _ | .arr _, .num _ | .arr _, .str _ | .arr _, .obj _
  | .obj _, .null | .obj _, .bool _ | .obj _, .num _ | .obj _, .str _ | .obj _, .arr _ =>
    isFalse (by intro h; exact Json.noConfusion h)

/-- Decidable equality on JSON value lists. -/
def Json.decEqList : (a b : List Json) → Decidable (a = b)
  | [], [] => isTrue rfl
  | [], _ :: _ => isFalse (by simp)
  | _ :: _, [] => isFalse (by simp)
  | x :: xs, y :: ys =>
    match Json.decEq x y, Json.decEqList xs ys with
    | isTrue h1, isTrue h2 => isTrue (by rw [h1, h2])
    | isFalse h1, _ => isFalse (by simp [h1])
    | _, isFalse h2 => isFalse (by simp [h2])

/-- Decidable equality on JSON object member lists. -/
def Json.decEqMembers : (a b : List (Bytes × Json)) → Decidable (a = b)
  | [], [] => isTrue rfl
  | [], _ :: _ => isFalse (by simp)
  | _ :: _, [] => isFalse (by simp)
  | (k1, v1) :: xs, (k2, v2) :: ys =>
    if h0 : k1 = k2 then
      match Json.decEq v1 v2, Json.decEqMembers xs ys with
      | isTrue h1, isTrue h2 => isTrue (by rw [h0, h1, h2])
      | isFalse h1, _ => isFalse (by simp [h1])
      | _, isFalse h2 => isFalse (by simp [h2])
    else isFalse (by simp [h0])

end

instance : DecidableEq Json := Json.decEq

/-- A JSON object body (`serde_json::Map<String, Value>`). -/
abbrev JObj := List (Bytes × Json)

namespace JObj

/-- Map lookup (`Map::get`). -/
def lookup (o : JObj) (k : Bytes) : Option Json :=
  match o with
  | [] => none
  | (k0, v0) :: rest => if k0 = k then some v0 else lookup rest k

/-- Key-membership test (`Map::contains_key`). -/
def containsKey (o : JObj) (k : Bytes) : Bool :=
  match o with
  | [] => false
  | (k0, _) :: rest => k0 = k || containsKey rest k

/-- Map insertion (`Map::insert` with `preserve_order`): an existing key keeps
its position and gets the new value, a fresh key is appended at the end. -/
def insert (o : JObj) (k : Bytes) (v : Json) : JObj :=
  match o with
  | [] => [(k, v)]
  | (k0, v0) :: rest => if k0 = k then (k0, v) :: rest else (k0, v0) :: insert rest k v

/-- Map removal (`Map::remove`, shift-removing the entry). -/
def erase (o : JObj) (k : Bytes) : JObj :=
  match o with
  | [] => []
  | (k0, v0) :: rest => if k0 = k then erase rest k else (k0, v0) :: erase rest k

/-- The keys, in member order. -/
def keys (o : JObj) : List Bytes := o.map Prod.fst

end JObj

/-- Order-insensitive JSON equality: `serde_json::Value`'s `PartialEq` with
`preserve_order` compares objects as maps (same size, same value per key),
ignoring member order.  This is the equality the crate's own decoder tests
assert with. -/
def Json.jeq : Json → Json → Bool
  | .null, .null => true
  | .bool a, .bool b => a = b
  | .num a, .num b => a = b
  | .str a, .str b => a = b
  | .arr xs, .arr ys =>
    let rec arrEq : List Json → List Json → Bool
      | [], [] => true
      | x :: xs, y :: ys => x.jeq y && arrEq xs ys
      | _, _ => false
    arrEq xs ys
  | .obj xs, .obj ys =>
    let rec memEq : List (Bytes × Json) → Bool
      | [] => true
      | (k, v) :: rest =>
        (match JObj.lookup ys k with
         | some w => v.jeq w
         | none => false) && memEq rest
    xs.length = ys.length && memEq xs
  | _, _ => false

/-- Well-formedness of an embedded JSON value: every object carries distinct
keys, as every `serde_json` map does by construction. -/
def Json.wf : Json → Bool
  | .null | .bool _ | .num _ | .str _ => true
  | .arr xs =>
    let rec arrWf : List Json → Bool
      | [] => true
      | x :: rest => x.wf && arrWf rest
    arrWf xs
  | .obj ms =>
    let rec memWf : List (Bytes × Json) → Bool
      | [] => true
      | (k, v) :: rest => !(JObj.containsKey rest k) && v.wf && memWf rest
    memWf ms

/-- Well-formedness of an object body. -/
def JObj.wf (o : JObj) : Bool := (Json.obj o).wf

end SdJwtModel

namespace SdJwtModel

/-! ## Serialization: `serde_json`'s compact writer, at byte level -/

/-- Lowercase hex digit byte for a value below 16 (`serde_json`'s table). -/
def hexDigit (n : Nat) : Nat := if n < 10 then 48 + n else 87 + n

/-- One byte of a JSON string, escaped the way `serde_json` writes it:
quote and backslash escaped, the five short control escapes, `\u00xx` for the
remaining control bytes, everything else copied through. -/
def escByte (b : Nat) : Bytes :=
  if b = 34 then [92, 34]
  else if b = 92 then [92, 92]
  else if b = 8 then [92, 98]
  else if b = 9 then [92, 116]
  else if b = 10 then [92, 110]
  else if b = 12 then [92, 102]
  else if b = 13 then [92, 114]
  else if b < 32 then [92, 117, 48, 48, hexDigit (b / 16), hexDigit (b % 16)]
  else [b]

/-- A JSON string literal: quote, escaped bytes, quote. -/
def renderStr (s : Bytes) : Bytes := 34 :: (s.flatMap escByte ++ [34])

/-- Decimal digit bytes of `n`, most significant first, onto `acc`, with
structural fuel (any fuel at least the digit count gives the digits; callers
pass `n` itself). -/
def natDigitsAux : Nat → Nat → Bytes → Bytes
  | 0, n, acc => (48 + n % 10) :: acc
  | f + 1, n, acc =>
    if n < 10 then (48 + n % 10) :: acc
    else natDigitsAux f (n / 10) ((48 + n % 10) :: acc)

/-- Decimal digit bytes of `n`, most significant first, onto `acc`. -/
def natDigits (n : Nat) (acc : Bytes) : Bytes := natDigitsAux n n acc

/-- An integer as decimal bytes, possibly with a leading minus sign. -/
def intBytes (i : Int) : Bytes :=
  (if i < 0 then [45] else []) ++ natDigits i.natAbs []

mutual

/-- Compact JSON serialization (`serde_json::to_vec` / `Value::to_string`):
no whitespace, members in list order. -/
def Json.render : Json → Bytes
  | .null => [110, 117, 108, 108]
  | .bool true => [116, 114, 117, 101]
  | .bool false => [102, 97, 108, 115, 101]
  | .num n => intBytes n
  | .str s => renderStr s
  | .arr es => 91 :: (Json.renderElems es ++ [93])
  | .obj ms => 123 :: (Json.renderMembers ms ++ [125])

/-- Array elements, comma-separated. -/
def Json.renderElems : List Json → Bytes
  | [] => []
  | e :: es => e.render ++ Json.renderElemsTail es

/-- The remaining array elements, each preceded by a comma. -/
def Json.renderElemsTail : List Json → Bytes
  | [] => []
  | e :: es => 44 :: (e.render ++ Json.renderElemsTail es)

/-- Object members, comma-separated `"key":value` pairs. -/
def Json.renderMembers : List (Bytes × Json) → Bytes
  | [] => []
  | (k, v) :: ms => renderStr k ++ 58 :: (v.render ++ Json.renderMembersTail ms)

/-- The remaining object members, each preceded by a comma. -/
def Json.renderMembersTail : List (Bytes × Json) → Bytes
  | [] => []
  | (k, v) :: ms => 44 :: (renderStr k ++ 58 :: (v.render ++ Json.renderMembersTail ms))

end

/-! ## Parsing: `serde_json::from_slice`, on the integer fragment -/

/-- JSON whitespace bytes: space, tab, line feed, carriage return. -/
def isWsB (b : Nat) : Bool := b = 32 || b = 9 || b = 10 || b = 13

/-- ASCII decimal digit test. -/
def isDigitB (b : Nat) : Bool := 48 ≤ b && b ≤ 57

/-- Drop leading JSON whitespace. -/
def skipWs : Bytes → Bytes
  | [] => []
  | b :: rest => if isWsB b then skipWs rest else b :: rest

/-- Split a leading run of decimal digits from the input. -/
def takeDigits : Bytes → Bytes × Bytes
  | [] => ([], [])
  | b :: rest =>
    if isDigitB b then
      let (ds, r) := takeDigits rest
      (b :: ds, r)
    else ([], b :: rest)

/-- The natural number denoted by a digit-byte run. -/
def digitsToNat (ds : Bytes) : Nat :=
  ds.foldl (fun acc b => acc * 10 + (b - 48)) 0

/-- Parse a JSON integer: optional minus sign and a digit run.  A following
`.`, `e` or `E` would make it a float, which lies outside the embedded
fragment, so the parse is rejected there. -/
def parseNum (cs : Bytes) : Option (Int × Bytes) :=
  let (neg, cs1) := match cs with
    | 45 :: r => (true, r)
    | _ => (false, cs)
  match takeDigits cs1 with
  | ([], _) => none
  | (ds, rest) =>
    match rest with
    | 46 :: _ => none
    | 101 :: _ => none
    | 69 :: _ => none
    | _ =>
      let m : Int := (digitsToNat ds : Int)
      some (if neg then -m else m, rest)

/-- The value of a hex digit byte, if it is one. -/
def hexVal (b : Nat) : Option Nat :=
  if 48 ≤ b && b ≤ 57 then some (b - 48)
  else if 97 ≤ b && b ≤ 102 then some (b - 87)
  else if 65 ≤ b && b ≤ 70 then some (b - 55)
  else none

/-- The UTF-8 bytes of a unicode code point (used for `\uXXXX` escapes). -/
def codepointUtf8 (n : Nat) : Bytes :=
  if n < 0x80 then [n]
  else if n < 0x800 then [0xC0 + n / 64, 0x80 + n % 64]
  else if n < 0x10000 then [0xE0 + n / 4096, 0x80 + n / 64 % 64, 0x80 + n % 64]
  else [0xF0 + n / 262144, 0x80 + n / 4096 % 64, 0x80 + n / 64 % 64, 0x80 + n % 64]

/-- Four hex digit bytes as a code unit, with the remaining input. -/
def hex4 : Bytes → Option (Nat × Bytes)
  | a :: b :: c :: d :: rest =>
    (match hexVal a, hexVal b, hexVal c, hexVal d with
     | some va, some vb, some vc, some vd =>
       some (((va * 16 + vb) * 16 + vc) * 16 + vd, rest)
     | _, _, _, _ => none)
  | _ => none

/-- Decode one escape sequence after the backslash, `serde`-style: the eight
simple escapes and `\uXXXX` (including surrogate pairs), as the produced bytes
and the remaining input. -/
def unesc : Bytes → Option (Bytes × Bytes)
  | [] => none
  | e :: rest =>
    if e = 34 then some ([34], rest)
    else if e = 92 then some ([92], rest)
    else if e = 47 then some ([47], rest)
    else if e = 98 then some ([8], rest)
    else if e = 102 then some ([12], rest)
    else if e = 110 then some ([10], rest)
    else if e = 114 then some ([13], rest)
    else if e = 116 then some ([9], rest)
    else if e = 117 then
      match hex4 rest with
      | some (n, rest2) =>
        if n < 0xD800 || 0xE000 ≤ n then some (codepointUtf8 n, rest2)
        else if n < 0xDC00 then
          (match rest2 with
           | 92 :: 117 :: more =>
             (match hex4 more with
              | some (n2, rest3) =>
                if 0xDC00 ≤ n2 && n2 < 0xE000 then
                  some (codepointUtf8 (0x10000 + (n - 0xD800) * 1024 + (n2 - 0xDC00)),
                    rest3)
                else none
              | none => none)
           | _ => none)
        else none
      | none => none
    else none

/-- Parse a string body after the opening quote, `serde`-style: raw control
bytes are rejected, escapes are decoded via `unesc`, all other bytes stream
through.  The fuel is spent one unit per consumed chunk of at least one byte,
so the callers\x27 input length is always enough: exhaustion can only strike on
exhausted input, where the parse fails anyway. -/
def parseStrBody : Nat → Bytes → Bytes → Option (Bytes × Bytes)
  | 0, _, _ => none
  | _ + 1, _, [] => none
  | fuel + 1, acc, b :: rest =>
    if b = 34 then some (acc.reverse, rest)
    else if b = 92 then
      match unesc rest with
      | some (out, rest2) => parseStrBody fuel (out.reverse ++ acc) rest2
      | none => none
    else if b < 32 then none
    else parseStrBody fuel (b :: acc) rest

mutual

/-- Parse one JSON value (fuel-recursive; the callers supply input length
plus one, which always suffices). -/
def parseVal : Nat → Bytes → Option (Json × Bytes)
  | 0, _ => none
  | fuel + 1, cs =>
    match skipWs cs with
    | 110 :: 117 :: 108 :: 108 :: r => some (.null, r)
    | 116 :: 114 :: 117 :: 101 :: r => some (.bool true, r)
    | 102 :: 97 :: 108 :: 115 :: 101 :: r => some (.bool false, r)
    | 34 :: r =>
      match parseStrBody r.length [] r with
      | some (s, r') => some (.str s, r')
      | none => none
    | 91 :: r =>
      (match skipWs r with
       | 93 :: r' => some (.arr [], r')
       | cs' =>
         match parseElems fuel cs' with
         | some (es, r') => some (.arr es, r')
         | none => none)
    | 123 :: r =>
      (match skipWs r with
       | 125 :: r' => some (.obj [], r')
       | cs' =>
         match parseMembers fuel cs' with
         | some (ms, r') => some (.obj ms, r')
         | none => none)
    | c :: rest =>
      if c = 45 || isDigitB c then
        match parseNum (c :: rest) with
        | some (n, r') => some (.num n, r')
        | none => none
      else none
    | [] => none

/-- Parse one or more comma-separated array elements up to `]`. -/
def parseElems : Nat → Bytes → Option (List Json × Bytes)
  | 0, _ => none
  | fuel + 1, cs =>
    match parseVal fuel cs with
    | none => none
    | some (v, r) =>
      match skipWs r with
      | 44 :: r' =>
        (match parseElems fuel r' with
         | some (vs, r2) => some (v :: vs, r2)
         | none => none)
      | 93 :: r' => some ([v], r')
      | _ => none

/-- Parse one or more comma-separated object members up to the closing brace. -/
def parseMembers : Nat → Bytes → Option (List (Bytes × Json) × Bytes)
  | 0, _ => none
  | fuel + 1, cs =>
    match skipWs cs with
    | 34 :: r =>
      (match parseStrBody r.length [] r with
       | none => none
       | some (key, r1) =>
         match skipWs r1 with
         | 58 :: r2 =>
           (match parseVal fuel r2 with
            | none => none
            | some (v, r3) =>
              match skipWs r3 with
              | 44 :: r4 =>
                (match parseMembers fuel r4 with
                 | some (ms, r5) => some ((key, v) :: ms, r5)
                 | none => none)
              | 125 :: r4 => some ([(key, v)], r4)
              | _ => none)
         | _ => none)
    | _ => none

end

/-- Parse a complete JSON document from bytes (`serde_json::from_slice` on the
embedded fragment): one value, with only whitespace around it. -/
def jsonParse (cs : Bytes) : Option Json :=
  match parseVal (cs.length + 1) cs with
  | none => none
  | some (v, rest) => if skipWs rest = [] then some v else none

end SdJwtModel

namespace SdJwtModel

/-! ## Base64 (the `multibase` crate's unpadded encodings) -/

/-- The byte for sextet `i` (below 64): standard alphabet when `u = false`
(`multibase::Base::Base64`), URL-safe when `u = true` (`Base64Url`). -/
def b64Char (u : Bool) (i : Nat) : Nat :=
  if i < 26 then 65 + i
  else if i < 52 then 71 + i
  else if i < 62 then i - 4
  else if i = 62 then (if u then 45 else 43)
  else (if u then 95 else 47)

/-- Unpadded base64 of a byte list, in the alphabet selected by `u`. -/
def b64Encode (u : Bool) : Bytes → Bytes
  | [] => []
  | [a] => [b64Char u (a / 4), b64Char u (a % 4 * 16)]
  | [a, b] => [b64Char u (a / 4), b64Char u (a % 4 * 16 + b / 16), b64Char u (b % 16 * 4)]
  | a :: b :: c :: rest =>
    b64Char u (a / 4) :: b64Char u (a % 4 * 16 + b / 16) ::
      b64Char u (b % 16 * 4 + c / 64) :: b64Char u (c % 64) :: b64Encode u rest

/-- Standard-alphabet unpadded base64 (`multibase::Base::Base64.encode`). -/
def b64StdEncode (bs : Bytes) : Bytes := b64Encode false bs

/-- URL-safe unpadded base64 (`multibase::Base::Base64Url.encode`). -/
def b64UrlEncode (bs : Bytes) : Bytes := b64Encode true bs

/-- The sextet of a URL-safe alphabet byte, if it is one. -/
def b64UrlVal (b : Nat) : Option Nat :=
  if 65 ≤ b && b ≤ 90 then some (b - 65)
  else if 97 ≤ b && b ≤ 122 then some (b - 71)
  else if 48 ≤ b && b ≤ 57 then some (b + 4)
  else if b = 45 then some 62
  else if b = 95 then some 63
  else none

/-- Reassemble bytes from decoded sextets, enforcing the canonical form
(`data-encoding`, as `multibase` uses it: a lone trailing sextet and nonzero
trailing bits are rejected). -/
def b64Regroup : List Nat → Option Bytes
  | [] => some []
  | [_] => none
  | [x, y] => if y % 16 = 0 then some [x * 4 + y / 16] else none
  | [x, y, z] => if z % 4 = 0 then some [x * 4 + y / 16, y % 16 * 16 + z / 4] else none
  | x :: y :: z :: w :: rest =>
    match b64Regroup rest with
    | some bs => some ((x * 4 + y / 16) :: (y % 16 * 16 + z / 4) :: (z % 4 * 64 + w) :: bs)
    | none => none

/-- URL-safe unpadded base64 decoding (`multibase::Base::Base64Url.decode`). -/
def b64UrlDecode (s : Bytes) : Option Bytes :=
  match s.mapM b64UrlVal with
  | some sextets => b64Regroup sextets
  | none => none

/-! ## SHA-256 (the crate's `Sha256Hasher` digest, via `iota-crypto`) -/

/-- Truncate to 32 bits. -/
def w32 (n : Nat) : Nat := n % 4294967296

/-- Right-rotation of a 32-bit word by `k`. -/
def rotr (k x : Nat) : Nat := w32 (x / 2 ^ k + x % 2 ^ k * 2 ^ (32 - k))

/-- Bitwise complement of a 32-bit word. -/
def notw (x : Nat) : Nat := 4294967295 - x

/-- The SHA-256 round constants. -/
def shaK : List Nat :=
  [1116352408, 1899447441, 3049323471, 3921009573, 961987163, 1508970993,
   2453635748, 2870763221, 3624381080, 310598401, 607225278, 1426881987,
   1925078388, 2162078206, 2614888103, 3248222580, 3835390401, 4022224774,
   264347078, 604807628, 770255983, 1249150122, 1555081692, 1996064986,
   2554220882, 2821834349, 2952996808, 3210313671, 3336571891, 3584528711,
   113926993, 338241895, 666307205, 773529912, 1294757372, 1396182291,
   1695183700, 1986661051, 2177026350, 2456956037, 2730485921, 2820302411,
   3259730800, 3345764771, 3516065817, 3600352804, 4094571909, 275423344,
   430227734, 506948616, 659060556, 883997877, 958139571, 1322822218,
   1537002063, 1747873779, 1955562222, 2024104815, 2227730452, 2361852424,
   2428436474, 2756734187, 3204031479, 3329325298]

/-- SHA-256 padding: append `0x80`, zeros to 56 mod 64, and the bit length
as 8 big-endian bytes. -/
def shaPad (msg : Bytes) : Bytes :=
  let len := msg.length
  let zeros := (64 - (len + 9) % 64) % 64
  let bitLen := len * 8
  msg ++ 128 :: List.replicate zeros 0 ++
    [bitLen / 2 ^ 56 % 256, bitLen / 2 ^ 48 % 256, bitLen / 2 ^ 40 % 256,
     bitLen / 2 ^ 32 % 256, bitLen / 2 ^ 24 % 256, bitLen / 2 ^ 16 % 256,
     bitLen / 2 ^ 8 % 256, bitLen % 256]

/-- Big-endian 32-bit words of a (padded) byte list. -/
def bytesToWords : Bytes → List Nat
  | a :: b :: c :: d :: rest => (((a * 256 + b) * 256 + c) * 256 + d) :: bytesToWords rest
  | _ => []

/-- Extend 16 block words to the full 64-entry message schedule. -/
def shaExtend (ws : List Nat) (i : Nat) : List Nat :=
  match i with
  | 0 => ws
  | i' + 1 =>
    let ws := shaExtend ws i'
    let t := ws.length
    let g := fun (j : Nat) => ws.getD (t - j) 0
    let s0 := Nat.xor (rotr 7 (g 15)) (Nat.xor (rotr 18 (g 15)) (g 15 / 8))
    let s1 := Nat.xor (rotr 17 (g 2)) (Nat.xor (rotr 19 (g 2)) (g 2 / 1024))
    ws ++ [w32 (g 16 + s0 + g 7 + s1)]

/-- One SHA-256 compression round. -/
def shaRound (st : List Nat) (kw : Nat × Nat) : List Nat :=
  match st with
  | [a, b, c, d, e, f, g, h] =>
    let s1 := Nat.xor (rotr 6 e) (Nat.xor (rotr 11 e) (rotr 25 e))
    let ch := Nat.xor (Nat.land e f) (Nat.land (notw e) g)
    let t1 := w32 (h + s1 + ch + kw.1 + kw.2)
    let s0 := Nat.xor (rotr 2 a) (Nat.xor (rotr 13 a) (rotr 22 a))
    let mj := Nat.xor (Nat.land a b) (Nat.xor (Nat.land a c) (Nat.land b c))
    let t2 := w32 (s0 + mj)
    [w32 (t1 + t2), a, b, c, w32 (d + t1), e, f, g]
  | other => other

/-- Process one 16-word block into the running hash state. -/
def shaBlock (st : List Nat) (block : List Nat) : List Nat :=
  let ws := shaExtend block 48
  let st' := (shaK.zip ws).foldl shaRound st
  (st.zip st').map (fun p => w32 (p.1 + p.2))

/-- Split the padded word stream into 16-word blocks and fold them (the
stream length is always a multiple of 16). -/
def shaBlocks (st : List Nat) : List Nat → List Nat
  | w0 :: w1 :: w2 :: w3 :: w4 :: w5 :: w6 :: w7 ::
      w8 :: w9 :: w10 :: w11 :: w12 :: w13 :: w14 :: w15 :: rest =>
    shaBlocks (shaBlock st [w0, w1, w2, w3, w4, w5, w6, w7,
                            w8, w9, w10, w11, w12, w13, w14, w15]) rest
  | _ => st

/-- The SHA-256 digest of a byte list, as 32 bytes. -/
def sha256 (msg : Bytes) : Bytes :=
  let st := shaBlocks
    [1779033703, 3144134277, 1013904242, 2773480762,
     1359893119, 2600822924, 528734635, 1541459225]
    (bytesToWords (shaPad msg))
  st.flatMap (fun wd => [wd / 2 ^ 24 % 256, wd / 2 ^ 16 % 256, wd / 2 ^ 8 % 256, wd % 256])

/-- A hasher, by its `encoded_digest` on the wire string it hashes: the
crate's `Hasher::encoded_digest` is base64url of `digest` over the string's
bytes. -/
abbrev HashFn := Bytes → Bytes

/-- The crate's `Sha256Hasher::encoded_digest`: unpadded base64url of the
SHA-256 digest of the input bytes. -/
def sha256EncodedDigest : HashFn := fun input => b64UrlEncode (sha256 input)

end SdJwtModel

namespace SdJwtModel

/-! ## The crate's error type (`error.rs`, with the variants the decoder,
presentation builder and signer path construct) -/

/-- The crate's `Error` enum.  Payloads are the formatted message bytes the
code builds (or the offending count, for `UnusedDisclosures`). -/
inductive Error where
  | InvalidDisclosure (msg : Bytes)
  | MissingHasher (alg : Bytes)
  | DataTypeMismatch (msg : Bytes)
  | ClaimCollisionError (name : Bytes)
  | DuplicateDigestError (digest : Bytes)
  | InvalidArrayDisclosureObject
  | InvalidPath (msg : Bytes)
  | DeserializationError (msg : Bytes)
  | IndexOutofBounds (idx : Nat)
  | Unspecified (msg : Bytes)
  | InvalidSaltSize
  | UnusedDisclosures (n : Nat)
  | InvalidHasher (msg : Bytes)
  | JwsSignerFailure (msg : Bytes)
deriving DecidableEq, Repr

/-- The reserved `_sd` key (`DIGESTS_KEY`). -/
def sdKey : Bytes := bytes "_sd"

/-- The reserved `_sd_alg` key (`SD_ALG`). -/
def sdAlgKey : Bytes := bytes "_sd_alg"

/-- The array-element digest marker `...` (`ARRAY_DIGEST_KEY`). -/
def dotsKey : Bytes := bytes "..."

/-- The default hash algorithm name (`SHA_ALG_NAME`). -/
def shaAlgName : Bytes := bytes "sha-256"

/-! ## Disclosure (`disclosure.rs`) -/

/-- The crate's `Disclosure`: salt, optional claim name, claim value, and the
wire-form string it was created from or parsed out of. -/
structure Disclosure where
  salt : Bytes
  claim_name : Option Bytes
  claim_value : Json
  disclosure : Bytes
deriving DecidableEq, Repr

/-- `Disclosure::new`: formats `["salt", "name", value]` (or the nameless
two-element form) with the salt and name spliced in verbatim — the code uses
`format!`, so they are *not* JSON-escaped — and the value serialized by
`serde_json`; the result is encoded with the *standard*-alphabet unpadded
base64 (`multibase::Base::Base64`). -/
def Disclosure.new (salt : Bytes) (claim_name : Option Bytes) (claim_value : Json) :
    Disclosure :=
  let input :=
    match claim_name with
    | some name =>
      [91, 34] ++ salt ++ [34, 44, 32, 34] ++ name ++ [34, 44, 32] ++
        claim_value.render ++ [93]
    | none => [91, 34] ++ salt ++ [34, 44, 32] ++ claim_value.render ++ [93]
  { salt := salt, claim_name := claim_name, claim_value := claim_value,
    disclosure := b64StdEncode input }

/-- `Disclosure::parse`: base64url-decode, JSON-parse into an array of two or
three elements, coerce the salt (and, in the three-element form, the claim
name) to strings. -/
def Disclosure.parse (disclosure : Bytes) : Except Error Disclosure :=
  match b64UrlDecode disclosure with
  | none =>
    .error (.InvalidDisclosure
      (bytes "Base64 decoding of the disclosure was not possible " ++ disclosure))
  | some data =>
    match jsonParse data with
    | some (.arr decoded) =>
      match decoded with
      | [s, v] =>
        (match s with
         | .str salt =>
           .ok { salt := salt, claim_name := none, claim_value := v,
                 disclosure := disclosure }
         | _ =>
           .error (.InvalidDisclosure (bytes "salt could not be parsed as a string")))
      | [s, n, v] =>
        (match s with
         | .str salt =>
           (match n with
            | .str name =>
              .ok { salt := salt, claim_name := some name, claim_value := v,
                    disclosure := disclosure }
            | _ =>
              .error (.InvalidDisclosure
                (bytes "claim name could not be parsed as a string")))
         | _ =>
           .error (.InvalidDisclosure (bytes "salt could not be parsed as a string")))
      | other =>
        .error (.InvalidDisclosure
          (bytes "deserialized array has an invalid length of " ++
            natDigits other.length []))
    | _ =>
      .error (.InvalidDisclosure
        (bytes "decoded disclosure could not be serialized as an array " ++ disclosure))

/-! ## Encoder (`encoder.rs`) -/

/-- `SdObjectEncoder::add_digest_to_object`: push the digest onto the `_sd`
array, creating it when absent; an existing non-array `_sd` is a
`DataTypeMismatch`. -/
def add_digest_to_object (o : JObj) (digest : Bytes) : Except Error JObj :=
  match JObj.lookup o sdKey with
  | some (Json.arr xs) => .ok (JObj.insert o sdKey (Json.arr (xs ++ [Json.str digest])))
  | some _ =>
    .error (.DataTypeMismatch (bytes "invalid object: existing `_sd` type is not an array"))
  | none => .ok (JObj.insert o sdKey (Json.arr [Json.str digest]))

/-- `SdObjectEncoder::conceal` as the state transformer it is on `&mut self`:
walk the path through nested objects, remove the target property, build its
disclosure, and push the digest onto the parent's `_sd`.  The mutated object
is returned even on error, because the Rust code mutates in place before the
`_sd`-shape check can fail. -/
def concealSt (h : HashFn) (o : JObj) (path : List Bytes) (salt : Bytes) :
    Except Error Disclosure × JObj :=
  match path with
  | [] => (.error (.InvalidPath (bytes "the provided path length is 0")), o)
  | [k] =>
    (match JObj.lookup o k with
     | none => (.error (.InvalidPath (k ++ bytes " does not exist")), o)
     | some v =>
       let o1 := JObj.erase o k
       let d := Disclosure.new salt (some k) v
       match add_digest_to_object o1 (h d.disclosure) with
       | .ok o2 => (.ok d, o2)
       | .error e => (.error e, o1))
  | k :: rest =>
    (match JObj.lookup o k with
     | some (Json.obj sub) =>
       let (r, sub') := concealSt h sub rest salt
       (r, JObj.insert o k (Json.obj sub'))
     | some _ => (.error (.InvalidPath (k ++ bytes " is not an object")), o)
     | none => (.error (.InvalidPath (k ++ bytes " does not exist")), o))

/-- `SdObjectEncoder::conceal`, result view: the disclosure and the updated
object on success. -/
def conceal (h : HashFn) (o : JObj) (path : List Bytes) (salt : Bytes) :
    Except Error (Disclosure × JObj) :=
  match concealSt h o path salt with
  | (.ok d, o') => .ok (d, o')
  | (.error e, _) => .error e

end SdJwtModel

namespace SdJwtModel

/-! ## Decoder (`decoder.rs`) -/

/-- The digest-to-disclosure map (`BTreeMap<String, Disclosure>`): only keyed
lookups and the entry count are ever observed, so an association list with
overwriting insert models it. -/
abbrev DMap := List (Bytes × Disclosure)

/-- Map lookup (`BTreeMap::get`). -/
def DMap.lookupD (m : DMap) (k : Bytes) : Option Disclosure :=
  match m with
  | [] => none
  | (k0, d0) :: rest => if k0 = k then some d0 else lookupD rest k

/-- Map insertion (`BTreeMap::insert`): an existing key's value is replaced. -/
def DMap.insertD (m : DMap) (k : Bytes) (d : Disclosure) : DMap :=
  match m with
  | [] => [(k, d)]
  | (k0, d0) :: rest => if k0 = k then (k0, d) :: rest else (k0, d0) :: insertD rest k d

/-- The type of the fuel-controlled recursion into disclosure values. -/
abbrev Jump := Json → List Bytes → Except Error (Json × List Bytes)

/-- The outcome of decoding one JSON value: a scalar passed through, or the
decoded members of an object, or the decoded elements of an array. -/
inductive DecodedValue where
  | plain (v : Json)
  | objRes (o : JObj)
  | arrRes (xs : List Json)

mutual

/-- Decode one JSON value: objects and arrays are walked recursively, other
values need no decoding (the dispatch both `decode_object` and `decode_array`
perform on each value they visit). -/
def decode_value_core (jump : Jump) (m : DMap) :
    Json → List Bytes → Except Error (DecodedValue × List Bytes)
  | .obj sub, p =>
    (match decode_entries jump m sub sub p with
     | .ok (dec, p') => .ok (.objRes dec, p')
     | .error e => .error e)
  | .arr a, p =>
    (match decode_array_core jump m a p with
     | .ok (xs, p') => .ok (.arrRes xs, p')
     | .error e => .error e)
  | other, p => .ok (.plain other, p)

/-- The entry walk of `decode_object`: the output starts as a clone of the
input object; the `_sd` entry is expanded via the digest list and then
removed; object and array values are decoded recursively and replace the
clone's entry unless the decoded result is empty; scalars are left cloned. -/
def decode_entries (jump : Jump) (m : DMap) :
    List (Bytes × Json) → JObj → List Bytes → Except Error (JObj × List Bytes)
  | [], out, p => .ok (out, p)
  | (k, v) :: rest, out, p =>
    if k = sdKey then
      match v with
      | .arr ds =>
        (match decode_digests jump m ds out p with
         | .ok (out', p') => decode_entries jump m rest (JObj.erase out' sdKey) p'
         | .error e => .error e)
      | _ => .error (.DataTypeMismatch (bytes "_sd is not an array"))
    else
      match decode_value_core jump m v p with
      | .ok (.objRes dec, p') =>
        decode_entries jump m rest
          (if dec = [] then out else JObj.insert out k (.obj dec)) p'
      | .ok (.arrRes dec, p') =>
        decode_entries jump m rest
          (if dec = [] then out else JObj.insert out k (.arr dec)) p'
      | .ok (.plain _, p') => decode_entries jump m rest out p'
      | .error e => .error e

/-- The `_sd` digest loop of `decode_object`: duplicates are fatal, digests
with a supplied disclosure are consumed (claim-name collisions are fatal, the
claim value is decoded recursively and inserted), unknown digests are
skipped. -/
def decode_digests (jump : Jump) (m : DMap) :
    List Json → JObj → List Bytes → Except Error (JObj × List Bytes)
  | [], out, p => .ok (out, p)
  | d :: ds, out, p =>
    match d with
    | .str dig =>
      if p.contains dig then .error (.DuplicateDigestError dig)
      else
        match DMap.lookupD m dig with
        | some disc =>
          (match disc.claim_name with
           | some name =>
             if JObj.containsKey out name then .error (.ClaimCollisionError name)
             else
               (match jump disc.claim_value (p ++ [dig]) with
                | .ok (rv, p2) => decode_digests jump m ds (JObj.insert out name rv) p2
                | .error e => .error e)
           | none =>
             .error (.DataTypeMismatch (bytes "disclosure type error: " ++ disc.disclosure)))
        | none => decode_digests jump m ds out p
    | other => .error (.DataTypeMismatch (other.render ++ bytes " is not a string"))

/-- `SdObjectDecoder::decode_array`: element objects whose first entry is the
`...` marker must be singletons and are substituted (or dropped when no
disclosure matches); an *empty* object element is dropped (the inner loop
never runs, so nothing is pushed); other element objects are decoded as
objects; nested arrays are decoded; scalars are copied. -/
def decode_array_core (jump : Jump) (m : DMap) :
    List Json → List Bytes → Except Error (List Json × List Bytes)
  | [], p => .ok ([], p)
  | v :: rest, p =>
    match v with
    | .obj o =>
      (match o.head? with
       | none => decode_array_core jump m rest p
       | some (k0, v0) =>
         if k0 = dotsKey then
           if o.length ≠ 1 then .error .InvalidArrayDisclosureObject
           else
             match v0 with
             | .str dig =>
               if p.contains dig then .error (.DuplicateDigestError dig)
               else
                 (match DMap.lookupD m dig with
                  | some disc =>
                    if disc.claim_name.isSome then
                      .error (.InvalidDisclosure (bytes "array length must be 2"))
                    else
                      (match jump disc.claim_value (p ++ [dig]) with
                       | .ok (rv, p2) =>
                         (match decode_array_core jump m rest p2 with
                          | .ok (xs, p3) => .ok (rv :: xs, p3)
                          | .error e => .error e)
                       | .error e => .error e)
                  | none => decode_array_core jump m rest p)
             | _ => .error (.DataTypeMismatch (bytes "... is not a string"))
         else
           match decode_entries jump m o o p with
           | .ok (dec, p') =>
             (match decode_array_core jump m rest p' with
              | .ok (xs, p2) => .ok (.obj dec :: xs, p2)
              | .error e => .error e)
           | .error e => .error e)
    | .arr a =>
      (match decode_array_core jump m a p with
       | .ok (dec, p') =>
         (match decode_array_core jump m rest p' with
          | .ok (xs, p2) => .ok (.arr dec :: xs, p2)
          | .error e => .error e)
       | .error e => .error e)
    | other =>
      (match decode_array_core jump m rest p with
       | .ok (xs, p') => .ok (other :: xs, p')
       | .error e => .error e)

end

/-- `SdObjectDecoder::decode_object`: output starts as a clone of the input
and the input's entries are walked in order. -/
def decode_object_core (jump : Jump) (m : DMap) (o : JObj) (p : List Bytes) :
    Except Error (JObj × List Bytes) :=
  decode_entries jump m o o p

/-- Recursion into a disclosure's claim value (`recursively_decoded` in the
Rust): arrays and objects are decoded, scalars pass through.  The fuel bounds
the disclosure-into-disclosure nesting; every consumed level first consumes a
fresh digest, so the callers' `m.length + 1` can never run out. -/
def decodeValueAtFuel (m : DMap) : Nat → Jump
  | 0, _, _ => .error (.Unspecified (bytes "recursion limit"))
  | f + 1, v, p =>
    match decode_value_core (decodeValueAtFuel m f) m v p with
    | .ok (.plain w, p') => .ok (w, p')
    | .ok (.objRes dec, p') => .ok (.obj dec, p')
    | .ok (.arrRes xs, p') => .ok (.arr xs, p')
    | .error e => .error e

/-- `decode_object` as `decode` invokes it on the top-level object. -/
def decode_object (m : DMap) (o : JObj) (p : List Bytes) :
    Except Error (JObj × List Bytes) :=
  decode_object_core (decodeValueAtFuel m (m.length + 1)) m o p

/-- The decoder state: registered hashers by algorithm name
(`SdObjectDecoder { hashers }`), each as its `encoded_digest` function. -/
structure SdObjectDecoder where
  hashers : List (Bytes × HashFn)

/-- Hasher-registry lookup. -/
def lookupH (hs : List (Bytes × HashFn)) (k : Bytes) : Option HashFn :=
  match hs with
  | [] => none
  | (k0, h0) :: rest => if k0 = k then some h0 else lookupH rest k

/-- `SdObjectDecoder::determine_hasher`: the `_sd_alg` value (default
`sha-256`) selects a registered hasher; a non-string `_sd_alg` is a
`DataTypeMismatch`, an unregistered algorithm a `MissingHasher`. -/
def determine_hasher (dec : SdObjectDecoder) (o : JObj) : Except Error HashFn :=
  match JObj.lookup o sdAlgKey with
  | some (.str alg) =>
    (match lookupH dec.hashers alg with
     | some h => .ok h
     | none => .error (.MissingHasher alg))
  | some _ => .error (.DataTypeMismatch (bytes "the value of `_sd_alg` is not a string"))
  | none =>
    (match lookupH dec.hashers shaAlgName with
     | some h => .ok h
     | none => .error (.MissingHasher shaAlgName))

/-- The digest-to-disclosure map construction in `decode`: each supplied wire
string is parsed and keyed by its digest. -/
def build_disclosure_map (h : HashFn) : List Bytes → DMap → Except Error DMap
  | [], acc => .ok acc
  | w :: rest, acc =>
    match Disclosure.parse w with
    | .ok pd => build_disclosure_map h rest (DMap.insertD acc (h w) pd)
    | .error e => .error e

/-- `SdObjectDecoder::decode`: determine the hasher, map the disclosures by
digest, decode the object recursively, fail `UnusedDisclosures` when fewer
digests were consumed than disclosures supplied, and strip `_sd_alg`. -/
def SdObjectDecoder.decode (dec : SdObjectDecoder) (object : JObj)
    (disclosures : List Bytes) : Except Error JObj :=
  match determine_hasher dec object with
  | .error e => .error e
  | .ok h =>
    match build_disclosure_map h disclosures [] with
    | .error e => .error e
    | .ok m =>
      match decode_object m object [] with
      | .error e => .error e
      | .ok (decoded, p) =>
        if p.length ≠ disclosures.length then
          .error (.UnusedDisclosures (disclosures.length - p.length))
        else
          .ok (JObj.erase decoded sdAlgKey)

/-- `SdObjectDecoder::new_with_sha256`: the decoder with the single `sha-256`
hasher registered. -/
def SdObjectDecoder.new_with_sha256 : SdObjectDecoder :=
  { hashers := [(shaAlgName, sha256EncodedDigest)] }

end SdJwtModel

namespace SdJwtModel

/-! ## JWT codec (`jwt.rs`) and typed SD-JWT claims (`sd_jwt.rs`) -/

/-- Split a byte string on a separator byte, `str::split` style: the empty
input yields one empty segment, and every separator occurrence delimits. -/
def splitByte (sep : Nat) : Bytes → List Bytes
  | [] => [[]]
  | b :: rest =>
    match splitByte sep rest with
    | x :: xs => if b = sep then [] :: x :: xs else (b :: x) :: xs
    | [] => [[b]]

/-- Join byte strings with a separator byte (`Itertools::join`). -/
def joinBytes (sep : Nat) : List Bytes → Bytes
  | [] => []
  | [x] => x
  | x :: rest => x ++ sep :: joinBytes sep rest

/-- `SdJwtClaims`: the typed JWT payload — the `_sd` digest list, the optional
`_sd_alg`, the optional `cnf` key-binding requirement (kept as its raw JSON:
`RequiredKeyBinding`'s externally-tagged serialization re-emits exactly the
object it parsed, and its untagged `Custom` fallback accepts anything), and
the flattened remaining properties. -/
structure SdJwtClaims where
  sd : List Bytes
  sd_alg : Option Bytes
  cnf : Option Json
  properties : JObj
deriving DecidableEq, Repr

/-- Serialize `SdJwtClaims` the way `serde` does: declared fields first
(`_sd` skipped when empty, options skipped when none), then the flattened
properties. -/
def SdJwtClaims.render (c : SdJwtClaims) : JObj :=
  (if c.sd = [] then [] else [(sdKey, Json.arr (c.sd.map Json.str))]) ++
  (match c.sd_alg with
   | some a => [(sdAlgKey, Json.str a)]
   | none => []) ++
  (match c.cnf with
   | some v => [(bytes "cnf", v)]
   | none => []) ++
  c.properties

/-- The `cnf` component of a claims object (null or absent both mean none). -/
def cnfOf (o : JObj) : Option Json :=
  match JObj.lookup o (bytes "cnf") with
  | some .null => none
  | some v => some v
  | none => none

/-- The flattened leftover properties of an `SdJwtClaims` object. -/
def propsOf (o : JObj) : JObj :=
  JObj.erase (JObj.erase (JObj.erase o sdKey) sdAlgKey) (bytes "cnf")

/-- Deserialize `SdJwtClaims` from a JSON object: `_sd` must be an array of
strings when present (defaulting to empty), `_sd_alg` a string (or null) when
present, `cnf` takes any value, and the remaining entries are the flattened
properties. -/
def parseSdJwtClaims (o : JObj) : Option SdJwtClaims :=
  let sdField : Option (List Bytes) :=
    match JObj.lookup o sdKey with
    | none => some []
    | some (.arr xs) =>
      xs.foldr (fun x acc =>
        match x, acc with
        | Json.str s, some rest => some (s :: rest)
        | _, _ => none) (some [])
    | some _ => none
  match sdField with
  | none => none
  | some sd =>
    match JObj.lookup o sdAlgKey with
    | some (.str a) => some ⟨sd, some a, cnfOf o, propsOf o⟩
    | some .null => some ⟨sd, none, cnfOf o, propsOf o⟩
    | some _ => none
    | none => some ⟨sd, none, cnfOf o, propsOf o⟩

/-- `Jwt<SdJwtClaims>`: header object, typed claims, opaque signature. -/
structure JwtSd where
  header : JObj
  claims : SdJwtClaims
  signature : Bytes
deriving DecidableEq, Repr

/-- `Jwt`'s `Display`: base64url of the re-serialized header and claims, dot,
signature (the parsed segments are *not* retained). -/
def JwtSd.display (j : JwtSd) : Bytes :=
  b64UrlEncode (Json.render (.obj j.header)) ++ 46 ::
    (b64UrlEncode (Json.render (.obj j.claims.render)) ++ 46 :: j.signature)

/-- `Jwt`'s `FromStr`: exactly three dot-separated segments; header and
payload are base64url-decoded and JSON-parsed. -/
def JwtSd.parse (s : Bytes) : Except Error JwtSd :=
  match splitByte 46 s with
  | [hSeg, pSeg, sig] =>
    (match b64UrlDecode hSeg with
     | none => .error (.DeserializationError (bytes "invalid JWT: not Base64Url-encoded"))
     | some hBytes =>
       match jsonParse hBytes with
       | some (.obj header) =>
         (match b64UrlDecode pSeg with
          | none => .error (.DeserializationError (bytes "invalid JWT: not Base64Url-encoded"))
          | some pBytes =>
            match jsonParse pBytes with
            | some (.obj payload) =>
              (match parseSdJwtClaims payload with
               | some claims => .ok ⟨header, claims, sig⟩
               | none => .error (.DeserializationError (bytes "invalid JWT: invalid JWT claims")))
            | _ => .error (.DeserializationError (bytes "invalid JWT: invalid JWT claims")))
       | _ => .error (.DeserializationError (bytes "invalid JWT: invalid JWT header properties")))
  | _ => .error (.DeserializationError (bytes "invalid JWT: wrong number of segments"))

/-! ## Key-binding JWT (`key_binding_jwt_claims.rs`) -/

/-- `KeyBindingJwtClaims`: the required `iat`, `aud`, `nonce` and `sd_hash`,
plus flattened extra properties. -/
structure KeyBindingJwtClaims where
  iat : Int
  aud : Bytes
  nonce : Bytes
  sd_hash : Bytes
  properties : JObj
deriving DecidableEq, Repr

/-- Serialize `KeyBindingJwtClaims` (declared fields, then the flattened
properties). -/
def KeyBindingJwtClaims.render (c : KeyBindingJwtClaims) : JObj :=
  [(bytes "iat", Json.num c.iat), (bytes "aud", Json.str c.aud),
   (bytes "nonce", Json.str c.nonce), (bytes "sd_hash", Json.str c.sd_hash)] ++
  c.properties

/-- Deserialize `KeyBindingJwtClaims` from a JSON object. -/
def parseKbClaims (o : JObj) : Option KeyBindingJwtClaims :=
  match JObj.lookup o (bytes "iat"), JObj.lookup o (bytes "aud"),
      JObj.lookup o (bytes "nonce"), JObj.lookup o (bytes "sd_hash") with
  | some (.num iat), some (.str aud), some (.str nonce), some (.str sd_hash) =>
    some ⟨iat, aud, nonce, sd_hash,
      JObj.erase (JObj.erase (JObj.erase (JObj.erase o (bytes "iat")) (bytes "aud"))
        (bytes "nonce")) (bytes "sd_hash")⟩
  | _, _, _, _ => none

/-- `KeyBindingJwt`: a JWT with `KeyBindingJwtClaims`. -/
structure KeyBindingJwt where
  header : JObj
  claims : KeyBindingJwtClaims
  signature : Bytes
deriving DecidableEq, Repr

/-- `KeyBindingJwt`'s `Display` (through `Jwt`'s). -/
def KeyBindingJwt.display (k : KeyBindingJwt) : Bytes :=
  b64UrlEncode (Json.render (.obj k.header)) ++ 46 ::
    (b64UrlEncode (Json.render (.obj k.claims.render)) ++ 46 :: k.signature)

/-- `KeyBindingJwt`'s `FromStr`: a JWT whose header carries
`typ == "kb+jwt"` and an `alg` value different from `"none"`. -/
def KeyBindingJwt.parse (s : Bytes) : Except Error KeyBindingJwt :=
  match splitByte 46 s with
  | [hSeg, pSeg, sig] =>
    (match b64UrlDecode hSeg with
     | none => .error (.DeserializationError (bytes "invalid JWT: not Base64Url-encoded"))
     | some hBytes =>
       match jsonParse hBytes with
       | some (.obj header) =>
         (match b64UrlDecode pSeg with
          | none => .error (.DeserializationError (bytes "invalid JWT: not Base64Url-encoded"))
          | some pBytes =>
            match jsonParse pBytes with
            | some (.obj payload) =>
              (match parseKbClaims payload with
               | some claims =>
                 if JObj.lookup header (bytes "typ") = some (.str (bytes "kb+jwt")) then
                   let algOk : Bool :=
                     match JObj.lookup header (bytes "alg") with
                     | some v => decide (v ≠ .str (bytes "none"))
                     | none => false
                   if algOk then
                     .ok ⟨header, claims, sig⟩
                   else
                     .error (.DeserializationError
                       (bytes "invalid KB-JWT: alg must be set and cannot be none"))
                 else
                   .error (.DeserializationError (bytes "invalid KB-JWT: wrong typ"))
               | none => .error (.DeserializationError (bytes "invalid JWT: invalid JWT claims")))
            | _ => .error (.DeserializationError (bytes "invalid JWT: invalid JWT claims")))
       | _ => .error (.DeserializationError (bytes "invalid JWT: invalid JWT header properties")))
  | _ => .error (.DeserializationError (bytes "invalid JWT: wrong number of segments"))

/-! ## SdJwt (`sd_jwt.rs`) -/

/-- `SdJwt`: issuer JWT, disclosures, optional KB-JWT. -/
structure SdJwt where
  jwt : JwtSd
  disclosures : List Disclosure
  key_binding_jwt : Option KeyBindingJwt
deriving DecidableEq, Repr

/-- `SdJwt::presentation`: `jwt ~ d1 ~ … ~ dN ~ [kb]`, with the inner tilde
group omitted when the disclosure join is empty. -/
def SdJwt.presentation (s : SdJwt) : Bytes :=
  let ds := joinBytes 126 (s.disclosures.map Disclosure.disclosure)
  let kb := match s.key_binding_jwt with
    | some k => k.display
    | none => []
  if ds = [] then s.jwt.display ++ 126 :: kb
  else s.jwt.display ++ 126 :: (ds ++ 126 :: kb)

/-- Parse every disclosure segment (`try_collect`). -/
def parseDisclosures : List Bytes → Except Error (List Disclosure)
  | [] => .ok []
  | s :: rest =>
    match Disclosure.parse s with
    | .ok d =>
      (match parseDisclosures rest with
       | .ok ds => .ok (d :: ds)
       | .error e => .error e)
    | .error e => .error e

/-- `SdJwt::parse`: split on `~` (at least two segments), parse the JWT from
the first, the disclosures from the middle, and — when the last segment is
nonempty — the KB-JWT from it. -/
def SdJwt.parse (s : Bytes) : Except Error SdJwt :=
  let segs := splitByte 126 s
  if segs.length < 2 then
    .error (.DeserializationError (bytes "SD-JWT format is invalid, less than 2 segments"))
  else
    match segs with
    | [] => .error (.DeserializationError (bytes "SD-JWT format is invalid, less than 2 segments"))
    | s0 :: rest =>
      match JwtSd.parse s0 with
      | .error e => .error e
      | .ok jwt =>
        match parseDisclosures rest.dropLast with
        | .error e => .error e
        | .ok ds =>
          match rest.getLast? with
          | some lastSeg =>
            if lastSeg = [] then .ok ⟨jwt, ds, none⟩
            else
              (match KeyBindingJwt.parse lastSeg with
               | .ok kb => .ok ⟨jwt, ds, some kb⟩
               | .error e => .error e)
          | none => .error (.DeserializationError (bytes "SD-JWT format is invalid"))

/-- `KeyBindingJwtBuilder::finish`.  The hasher is its name plus digest
function; the async signer's outcome is passed as a value (`sign` is one
suspension returning bytes or an error). -/
def KeyBindingJwtBuilder.finish (claims0 : JObj) (sd_jwt : SdJwt)
    (hasherName : Bytes) (hasher : HashFn) (alg : Bytes)
    (signResult : Except Bytes Bytes) : Except Error KeyBindingJwt :=
  if alg = bytes "none" then
    .error (.DataTypeMismatch (bytes "A KeyBindingJwt cannot use algorithm none"))
  else if sd_jwt.key_binding_jwt.isSome then
    .error (.DataTypeMismatch (bytes "the provided SD-JWT already has a KB-JWT attached"))
  else if (sd_jwt.jwt.claims.sd_alg.getD shaAlgName) ≠ hasherName then
    .error (.MissingHasher (bytes "invalid hashing algorithm"))
  else
    let sd_hash := hasher sd_jwt.presentation
    let claims := JObj.insert claims0 (bytes "sd_hash") (.str sd_hash)
    let header : JObj := [(bytes "alg", .str alg), (bytes "typ", .str (bytes "kb+jwt"))]
    match parseKbClaims claims with
    | none => .error (.DeserializationError (bytes "invalid KB-JWT claims"))
    | some parsed =>
      match signResult with
      | .ok raw => .ok ⟨header, parsed, b64UrlEncode raw⟩
      | .error e => .error (.JwsSignerFailure e)

end SdJwtModel

namespace SdJwtModel

/-! ## Presentation builder (`sd_jwt.rs`) -/

/-- The builder's ordered digest-to-disclosure map (`IndexMap`): an
association list in insertion order. -/
abbrev IMap := List (Bytes × Disclosure)

/-- `IndexMap::get`. -/
def IMap.imGet (m : IMap) (k : Bytes) : Option Disclosure :=
  match m with
  | [] => none
  | (k0, d0) :: rest => if k0 = k then some d0 else imGet rest k

/-- `IndexMap::get_index_of`: the insertion position of a key. -/
def IMap.idxOf (m : IMap) (k : Bytes) : Option Nat :=
  match m with
  | [] => none
  | (k0, _) :: rest => if k0 = k then some 0 else (idxOf rest k).map Nat.succ

/-- `IndexMap::get_index`: the entry at a position. -/
def IMap.entryAt (m : IMap) (i : Nat) : Option (Bytes × Disclosure) := m.get? i

/-- The `disclosures_to_omit` hash set, as a duplicate-free list (only
membership is ever observed). -/
def hsInsert (s : List Nat) (x : Nat) : List Nat :=
  if s.contains x then s else s ++ [x]

/-- `HashSet::extend`. -/
def hsExtend (s : List Nat) (xs : List Nat) : List Nat := xs.foldl hsInsert s

/-- `SdJwtPresentationBuilder`: the SD-JWT being prepared, the ordered
digest-to-disclosure map, the omission set, and the JSON view of the claims
with `_sd` reinstated. -/
structure SdJwtPresentationBuilder where
  sd_jwt : SdJwt
  disclosures : IMap
  disclosures_to_omit : List Nat
  object : Json
deriving DecidableEq, Repr

/-- `SdJwtPresentationBuilder::new`: reject a hasher that does not match
`_sd_alg` (default `sha-256`), key the disclosures by digest in issuance
order, and rebuild the claims object with `_sd` reinstated. -/
def presentationBuilderNew (sd_jwt : SdJwt) (hasherName : Bytes) (h : HashFn) :
    Except Error SdJwtPresentationBuilder :=
  if (sd_jwt.jwt.claims.sd_alg.getD shaAlgName) ≠ hasherName then
    .error (.InvalidHasher (bytes "hasher does not match the required algorithm"))
  else
    .ok
      { sd_jwt := sd_jwt
        disclosures := sd_jwt.disclosures.map (fun d => (h d.disclosure, d))
        disclosures_to_omit := []
        object := .obj (JObj.insert sd_jwt.jwt.claims.properties sdKey
          (.arr (sd_jwt.jwt.claims.sd.map Json.str))) }

/-- The path split of the presentation builder: strip leading slashes, then
split on `/`. -/
def pbSegments (path : Bytes) : List Bytes :=
  splitByte 47 (path.dropWhile (fun b => b = 47))

/-- `find_disclosure`: the first `_sd` digest string whose mapped disclosure
has the wanted claim name, as its map position. -/
def find_disclosure (o : JObj) (key : Bytes) (m : IMap) : Option Nat :=
  let digs : List Bytes :=
    match JObj.lookup o sdKey with
    | some (.arr vs) =>
      vs.filterMap (fun v => match v with
        | Json.str s => some s
        | _ => none)
    | _ => []
  match digs.find? (fun dig =>
    match IMap.imGet m dig with
    | some d => d.claim_name = some key
    | none => false) with
  | some dig => IMap.idxOf m dig
  | none => none

/-- `Value::get` on an object. -/
def Json.getKey (v : Json) (k : Bytes) : Option Json :=
  match v with
  | .obj o => JObj.lookup o k
  | _ => none

/-- `usize::from_str` on a path fragment (optional plus sign, digits). -/
def parseUsize (s : Bytes) : Option Nat :=
  let ds := match s with
    | 43 :: rest => rest
    | _ => s
  if ds = [] then none
  else if ds.all (fun b => isDigitB b) then some (digitsToNat ds)
  else none

/-- `traverse_disclosable_object_step`: step through a visible object
property, else through a disclosure found by claim name; in arrays, index and
follow a `{"...": digest}` marker through its disclosure when mapped. -/
def traverse_step (v : Json) (frag : Bytes) (m : IMap) : Option (Json × Option Nat) :=
  match v with
  | .obj o =>
    if JObj.containsKey o frag then
      (JObj.lookup o frag).map (fun w => (w, none))
    else
      (match find_disclosure o frag m with
       | some i =>
         (match IMap.entryAt m i with
          | some (_, d) => some (d.claim_value, some i)
          | none => none)
       | none => none)
  | .arr a =>
    (match parseUsize frag with
     | some i =>
       (match a.get? i with
        | some el =>
          (match el.getKey dotsKey with
           | some (.str dig) =>
             (match IMap.idxOf m dig, IMap.imGet m dig with
              | some i', some d => some (d.claim_value, some i')
              | _, _ => none)
           | _ => some (el, none))
        | none => none)
     | none => none)
  | _ => none

/-- `traverse_disclosable_object`: walk all path fragments, collecting the
positions of the disclosures stepped through. -/
def traverse_disclosable_object (v : Json) (path : List Bytes) (m : IMap) :
    Option (Json × List Nat) :=
  match path with
  | [] => some (v, [])
  | frag :: rest =>
    match traverse_step v frag m with
    | some (v', stepped) =>
      (match traverse_disclosable_object v' rest m with
       | some (w, visited) =>
         some (w, (match stepped with
           | some i => i :: visited
           | none => visited))
       | none => none)
    | none => none

mutual

/-- `get_all_sub_disclosures`: positions of mapped digests named in the
value's `_sd` arrays, plus — for array elements that are objects — either the
mapped `...` digest's position or the element's own collection.  It inspects
only the value tree it is handed: digests inside *other* disclosures' values
are not followed. -/
def get_all_sub_disclosures (m : IMap) : Json → List Nat
  | .obj o =>
    (match JObj.lookup o sdKey with
     | some (.arr vs) =>
       vs.filterMap (fun x => match x with
         | Json.str dig => IMap.idxOf m dig
         | _ => none)
     | _ => []) ++ gasValues m o
  | .arr a => gasElems m a
  | _ => []

/-- The recursion of `get_all_sub_disclosures` over an object's values. -/
def gasValues (m : IMap) : List (Bytes × Json) → List Nat
  | [] => []
  | (_, w) :: rest => get_all_sub_disclosures m w ++ gasValues m rest

/-- The recursion of `get_all_sub_disclosures` over an array: only object
elements are examined; a mapped `...` digest contributes its position and
stops the descent, anything else descends. -/
def gasElems (m : IMap) : List Json → List Nat
  | [] => []
  | el :: rest =>
    (match el with
     | .obj _ =>
       (match el.getKey dotsKey with
        | some (.str dig) =>
          (match IMap.idxOf m dig with
           | some i => [i]
           | none => get_all_sub_disclosures m el)
        | _ => get_all_sub_disclosures m el)
     | _ => []) ++ gasElems m rest

end

/-- `find_disclosure_and_sub_disclosures_for_value_at_path`: resolve the
path, require the final step to have gone through a disclosure, and collect
that disclosure's position together with the positions found in its value. -/
def find_disclosure_and_sub (v : Json) (path : Bytes) (m : IMap) :
    Except Error (List Nat) :=
  match traverse_disclosable_object v (pbSegments path) m with
  | none =>
    .error (.InvalidPath (bytes "the referenced element doesn\x27t exist or is not concealable"))
  | some (value, visited) =>
    match visited.getLast? with
    | none =>
      .error (.InvalidPath (bytes "the referenced element doesn\x27t exist or is not concealable"))
    | some path_referenced =>
      .ok (get_all_sub_disclosures m value ++ [path_referenced])

/-- `SdJwtPresentationBuilder::conceal`: extend the omission set with the
disclosure reached by the path and its collected sub-disclosures. -/
def SdJwtPresentationBuilder.conceal (b : SdJwtPresentationBuilder) (path : Bytes) :
    Except Error SdJwtPresentationBuilder :=
  match find_disclosure_and_sub b.object path b.disclosures with
  | .ok ids =>
    .ok { b with disclosures_to_omit := hsExtend b.disclosures_to_omit ids }
  | .error e => .error e

/-- `SdJwtPresentationBuilder::finish`: partition the disclosures by the
omission mask (kept and omitted both keep insertion order), reinstall `_sd`
and the properties from the object view, and return the SD-JWT with the kept
disclosures plus the omitted ones. -/
def SdJwtPresentationBuilder.finish (b : SdJwtPresentationBuilder) :
    SdJwt × List Disclosure :=
  let indexed := (List.range b.disclosures.length).zip (b.disclosures.map Prod.snd)
  let kept := (indexed.filter (fun p => !(b.disclosures_to_omit.contains p.1))).map Prod.snd
  let omitted := (indexed.filter (fun p => b.disclosures_to_omit.contains p.1)).map Prod.snd
  let obj0 : JObj := match b.object with
    | .obj o => o
    | _ => []
  let sdStrings : List Bytes :=
    match JObj.lookup obj0 sdKey with
    | some (.arr vs) =>
      vs.filterMap (fun v => match v with
        | Json.str s => some s
        | _ => none)
    | _ => []
  let jwt' : JwtSd :=
    { b.sd_jwt.jwt with
        claims :=
          { b.sd_jwt.jwt.claims with
              sd := sdStrings
              properties := JObj.erase obj0 sdKey } }
  ({ jwt := jwt', disclosures := kept, key_binding_jwt := b.sd_jwt.key_binding_jwt },
    omitted)

mutual

/-- A digest occurrence in a value tree, the specification's reading: the
digest sits in some `_sd` array, or is the `...` marker value of an array
element object — restricted to the tree itself, not entered disclosures. -/
def digestOccursIn (dig : Bytes) : Json → Bool
  | .obj o =>
    (match JObj.lookup o sdKey with
     | some (.arr vs) => vs.contains (Json.str dig)
     | _ => false) || digOccValues dig o
  | .arr a => digOccElems dig a
  | _ => false

/-- Occurrences inside an object's values. -/
def digOccValues (dig : Bytes) : List (Bytes × Json) → Bool
  | [] => false
  | (_, w) :: rest => digestOccursIn dig w || digOccValues dig rest

/-- Occurrences inside an array's object elements. -/
def digOccElems (dig : Bytes) : List Json → Bool
  | [] => false
  | el :: rest =>
    (match el with
     | .obj _ =>
       (match el.getKey dotsKey with
        | some (.str d) => d = dig || digestOccursIn dig el
        | _ => digestOccursIn dig el)
     | _ => false) || digOccElems dig rest

end

end SdJwtModel

namespace SdJwtModel

/-! ## Concrete instances used by counterexamples and witnesses -/

/-- A disclosure whose JSON bytes force `+` into the standard base64 output
(five tildes guarantee an aligned all-`0x7E` triple). -/
def exTildeDisclosure : Disclosure :=
  Disclosure.new (bytes "x") none (Json.str (bytes "~~~~~"))

/-- C5 scenario, innermost disclosure: claim `c`. -/
def exDiscC : Disclosure := Disclosure.new (bytes "s3") (some (bytes "c")) (Json.num 1)

/-- C5 scenario, middle disclosure: claim `b`, concealing `c` inside. -/
def exDiscB : Disclosure :=
  Disclosure.new (bytes "s2") (some (bytes "b"))
    (Json.obj [(sdKey, Json.arr [Json.str (bytes "dc")])])

/-- C5 scenario, outer disclosure: claim `a`, concealing `b` inside. -/
def exDiscA : Disclosure :=
  Disclosure.new (bytes "s1") (some (bytes "a"))
    (Json.obj [(sdKey, Json.arr [Json.str (bytes "db")])])

/-- C5 scenario: a presentation builder holding `c` (position 0), `b`
(position 1) and `a` (position 2), with only `a`'s digest visible at the top
level. -/
def exC5Builder : SdJwtPresentationBuilder :=
  { sd_jwt :=
      { jwt :=
          { header := [(bytes "alg", Json.str (bytes "ES256"))]
            claims := ⟨[bytes "da"], none, none, []⟩
            signature := bytes "sig" }
        disclosures := []
        key_binding_jwt := none }
    disclosures := [(bytes "dc", exDiscC), (bytes "db", exDiscB), (bytes "da", exDiscA)]
    disclosures_to_omit := []
    object := Json.obj [(sdKey, Json.arr [Json.str (bytes "da")])] }

/-- C4 witness: an SD-JWT with no KB-JWT and default hash algorithm. -/
def exC4SdJwt : SdJwt :=
  { jwt :=
      { header := [(bytes "alg", Json.str (bytes "ES256"))]
        claims := ⟨[], none, none, [(bytes "iss", Json.str (bytes "me"))]⟩
        signature := bytes "sig" }
    disclosures := []
    key_binding_jwt := none }

/-- C4 witness: the KB-JWT `finish` produces for `exC4SdJwt`. -/
def exC4Kb : KeyBindingJwt :=
  { header := [(bytes "alg", Json.str (bytes "HS256")), (bytes "typ", Json.str (bytes "kb+jwt"))]
    claims :=
      ⟨4, bytes "a", bytes "n", sha256EncodedDigest exC4SdJwt.presentation, []⟩
    signature := b64UrlEncode (bytes "raw") }

/-- The processed-digest discipline: the list only ever grows, by digests
that are pairwise distinct, new, and backed by a supplied disclosure. -/
def FreshExt (m : DMap) (p p' : List Bytes) : Prop :=
  ∃ q, p' = p ++ q ∧ q.Nodup ∧ ∀ d ∈ q, d ∉ p ∧ (DMap.lookupD m d).isSome

/-- A recursion callback that preserves the processed-digest discipline. -/
def JumpExtends (m : DMap) (jump : Jump) : Prop :=
  ∀ v p rv p2, jump v p = .ok (rv, p2) → FreshExt m p p2

/-- C8 witness: a transparent hasher (the digest of a wire string is the
string itself). -/
def exC8hash : HashFn := fun s => s

/-- C8 witness: a decoder registering `exC8hash` under `sha-256`. -/
def exC8dec : SdObjectDecoder := { hashers := [(shaAlgName, exC8hash)] }

/-- C8 witness: first disclosure wire. -/
def exC8w1 : Bytes := b64UrlEncode (bytes "[\"s\", \"n\", 1]")

/-- C8 witness: second disclosure wire (never referenced by the object). -/
def exC8w2 : Bytes := b64UrlEncode (bytes "[\"s\", \"m\", 2]")

/-- C8 witness: an object referencing only the first disclosure's digest. -/
def exC8obj : JObj := [(sdKey, Json.arr [Json.str exC8w1])]

/-- C8 witness: the digest-to-disclosure map `decode` builds. -/
def exC8m : DMap :=
  match build_disclosure_map exC8hash [exC8w1, exC8w2] [] with
  | .ok m => m
  | .error _ => []

/-- C8 witness: the walk's outcome. -/
def exC8run : Except Error (JObj × List Bytes) := decode_object exC8m exC8obj []

/-- C8 witness: the decoded object of the walk. -/
def exC8decoded : JObj :=
  match exC8run with
  | .ok (d, _) => d
  | .error _ => []

/-- C8 witness: the digests the walk consumed. -/
def exC8p : List Bytes :=
  match exC8run with
  | .ok (_, p) => p
  | .error _ => []

mutual

/-- Well-shaped `...` usage: every array-element object whose `...` entry is
a digest string is a singleton (the only shape the encoder emits). -/
def dotsOk : Json → Bool
  | .obj o => dotsOkValues o
  | .arr a => dotsOkElems a
  | _ => true

/-- `dotsOk` over an object's values. -/
def dotsOkValues : List (Bytes × Json) → Bool
  | [] => true
  | (_, w) :: rest => dotsOk w && dotsOkValues rest

/-- `dotsOk` over an array's elements. -/
def dotsOkElems : List Json → Bool
  | [] => true
  | el :: rest =>
    (match el with
     | .obj o =>
       (match el.getKey dotsKey with
        | some (.str _) => o.length = 1
        | _ => dotsOk el)
     | _ => true) && dotsOkElems rest

end

/-- C5 witness: the builder state after `conceal("/a")` on `exC5Builder`. -/
def exC5After : SdJwtPresentationBuilder :=
  { exC5Builder with disclosures_to_omit := [1, 2] }

/-! ## Round-trip infrastructure (C2, C1) -/

/-- A suffix before which a rendered number parses back exactly: empty, or
headed by a byte that neither extends the digit run nor turns it into a
float. -/
def numDelim (rest : Bytes) : Bool :=
  match rest with
  | [] => true
  | b :: _ => !(isDigitB b || b = 46 || b = 101 || b = 69)

/-- Bytes that splice into a JSON string literal unchanged: printable (no
control bytes), no quote, no backslash, and genuine bytes (below 256). -/
def strPlain (s : Bytes) : Bool :=
  s.all (fun b => 32 ≤ b && b ≠ 34 && b ≠ 92 && b < 256)

mutual

/-- Fuel needed by `parseVal` to parse this value back: one unit per parser
call in the recursion. -/
def Json.fsize : Json → Nat
  | .arr es => Json.fsizeElems es + 1
  | .obj ms => Json.fsizeMembers ms + 1
  | _ => 1

/-- Fuel needed by `parseElems` on these rendered elements. -/
def Json.fsizeElems : List Json → Nat
  | [] => 0
  | e :: es => e.fsize + Json.fsizeElems es + 1

/-- Fuel needed by `parseMembers` on these rendered members. -/
def Json.fsizeMembers : List (Bytes × Json) → Nat
  | [] => 0
  | (_, v) :: ms => v.fsize + Json.fsizeMembers ms + 1

end

mutual

/-- All string contents and object keys of the value are genuine bytes
(below 256) — the range `Vec<u8>` guarantees in the Rust. -/
def Json.strsLt256 : Json → Bool
  | .str s => s.all (fun b => b < 256)
  | .arr es => Json.strsLt256E es
  | .obj ms => Json.strsLt256M ms
  | _ => true

/-- `strsLt256` over array elements. -/
def Json.strsLt256E : List Json → Bool
  | [] => true
  | e :: es => e.strsLt256 && Json.strsLt256E es

/-- `strsLt256` over object members. -/
def Json.strsLt256M : List (Bytes × Json) → Bool
  | [] => true
  | (k, v) :: ms => k.all (fun b => b < 256) && v.strsLt256 && Json.strsLt256M ms

end

/-- The decoded-value view `decode_value_core` returns when nothing in the
value needs decoding. -/
def plainDecoded : Json → DecodedValue
  | .obj o => .objRes o
  | .arr a => .arrRes a
  | w => .plain w

mutual

/-- A value the decoder passes through unchanged: no `_sd` keys anywhere,
objects carry distinct keys, and no array element is an empty object or an
object whose first key is the `...` marker. -/
def cleanVal : Json → Bool
  | .obj o => !(JObj.containsKey o sdKey) && cleanVals o
  | .arr a => cleanElems a
  | _ => true

/-- `cleanVal` over an object body, also requiring pairwise-distinct keys. -/
def cleanVals : List (Bytes × Json) → Bool
  | [] => true
  | (k, v) :: rest => !(JObj.containsKey rest k) && cleanVal v && cleanVals rest

/-- `cleanVal` over array elements: object elements must be nonempty with a
non-`...` first key. -/
def cleanElems : List Json → Bool
  | [] => true
  | el :: rest =>
    (match el with
     | .obj o =>
       (match o.head? with
        | some kv => decide (kv.1 ≠ dotsKey)
        | none => false)
     | _ => true) && cleanVal el && cleanElems rest

end

/-- Pairwise-distinct keys, as the chain of `containsKey` checks. -/
def keysND : JObj → Bool
  | [] => true
  | (k, _) :: rest => !(JObj.containsKey rest k) && keysND rest

/-- The sextet stream underlying an unpadded base64 encoding. -/
def b64Sextets : Bytes → List Nat
  | [] => []
  | [a] => [a / 4, a % 4 * 16]
  | [a, b] => [a / 4, a % 4 * 16 + b / 16, b % 16 * 4]
  | a :: b :: c :: rest =>
    a / 4 :: (a % 4 * 16 + b / 16) :: (b % 16 * 4 + c / 64) :: (c % 64) ::
      b64Sextets rest

end SdJwtModel

namespace SdJwtModel

/-! ## Basic association-list lemmas -/

/-- Decidable equality for `Except` results. -/
instance instDecEqExcept {ε α : Type} [DecidableEq ε] [DecidableEq α] :
    DecidableEq (Except ε α) := fun a b =>
  match a, b with
  | .ok x, .ok y =>
    if h : x = y then isTrue (by rw [h]) else isFalse (by simp [h])
  | .error e, .error f =>
    if h : e = f then isTrue (by rw [h]) else isFalse (by simp [h])
  | .ok _, .error _ => isFalse (by intro h; exact Except.noConfusion h)
  | .error _, .ok _ => isFalse (by intro h; exact Except.noConfusion h)

theorem lookup_erase_self (o : JObj) (k : Bytes) : JObj.lookup (JObj.erase o k) k = none := by
  induction o with
  | nil => rfl
  | cons hd tl ih =>
    obtain ⟨k0, v0⟩ := hd
    by_cases h : k0 = k <;> simp [JObj.erase, JObj.lookup, h, ih]

theorem lookup_erase_ne (o : JObj) (k k' : Bytes) (h : k' ≠ k) :
    JObj.lookup (JObj.erase o k') k = JObj.lookup o k := by
  induction o with
  | nil => rfl
  | cons hd tl ih =>
    obtain ⟨k0, v0⟩ := hd
    by_cases h0 : k0 = k'
    · subst h0
      simp [JObj.erase, JObj.lookup, h, ih, Ne.symm h]
    · by_cases h1 : k0 = k <;> simp [JObj.erase, JObj.lookup, h0, h1, ih, Ne.symm h]

theorem lookup_insert_ne (o : JObj) (k k' : Bytes) (v : Json) (h : k' ≠ k) :
    JObj.lookup (JObj.insert o k' v) k = JObj.lookup o k := by
  induction o with
  | nil => simp [JObj.insert, JObj.lookup, h, Ne.symm h]
  | cons hd tl ih =>
    obtain ⟨k0, v0⟩ := hd
    by_cases h0 : k0 = k'
    · subst h0
      simp [JObj.insert, JObj.lookup, h, ih, Ne.symm h]
    · by_cases h1 : k0 = k <;> simp [JObj.insert, JObj.lookup, h0, h1, ih, Ne.symm h]

theorem lookup_some_mem_keys (o : JObj) (k : Bytes) :
    JObj.lookup o k ≠ none → k ∈ o.map Prod.fst := by
  induction o with
  | nil => intro h; exact absurd rfl h
  | cons hd tl ih =>
    obtain ⟨k0, v0⟩ := hd
    intro h
    by_cases h0 : k0 = k
    · simp [h0]
    · simp only [JObj.lookup, if_neg h0] at h
      simp [ih h]

/-! ## Decoder output: reserved keys at the top level (C6) -/

/-- Walking entries never leaves an `_sd` key in the output, provided the
output currently has none or an `_sd` entry is still to be walked. -/
theorem decode_entries_no_sd (jump : Jump) (m : DMap) :
    ∀ (l : List (Bytes × Json)) (out : JObj) (p : List Bytes) out' p',
      decode_entries jump m l out p = .ok (out', p') →
      (JObj.lookup out sdKey = none ∨ sdKey ∈ l.map Prod.fst) →
      JObj.lookup out' sdKey = none := by
  intro l
  induction l with
  | nil =>
    intro out p out' p' hok hpre
    simp only [decode_entries] at hok
    cases hok
    rcases hpre with h | h
    · exact h
    · simp at h
  | cons hd rest ih =>
    intro out p out' p' hok hpre
    obtain ⟨k, v⟩ := hd
    simp only [decode_entries] at hok
    by_cases hk : k = sdKey
    · rw [if_pos hk] at hok
      split at hok
      · split at hok
        · exact ih _ _ _ _ hok (Or.inl (lookup_erase_self _ _))
        · exact absurd hok (by simp)
      · exact absurd hok (by simp)
    · rw [if_neg hk] at hok
      have hpre' : JObj.lookup out sdKey = none ∨ sdKey ∈ rest.map Prod.fst := by
        rcases hpre with h | h
        · exact Or.inl h
        · simp only [List.map_cons, List.mem_cons] at h
          rcases h with h | h
          · exact absurd h.symm hk
          · exact Or.inr h
      split at hok
      · rename_i dec p1 heq
        refine ih _ _ _ _ hok ?_
        rcases hpre' with h | h
        · left
          by_cases hdec : dec = []
          · simpa [hdec] using h
          · simp only [if_neg hdec]
            rw [lookup_insert_ne out sdKey k _ hk]
            exact h
        · exact Or.inr h
      · rename_i dec p1 heq
        refine ih _ _ _ _ hok ?_
        rcases hpre' with h | h
        · left
          by_cases hdec : dec = []
          · simpa [hdec] using h
          · simp only [if_neg hdec]
            rw [lookup_insert_ne out sdKey k _ hk]
            exact h
        · exact Or.inr h
      · exact ih _ _ _ _ hok hpre'
      · exact absurd hok (by simp)

/-- Claim C6 (amended): whenever `SdObjectDecoder::decode` succeeds, the
returned object contains neither an `_sd` key nor an `_sd_alg` key at the
top level.  (The claim's stronger "at any nesting depth, including the `...`
marker" fails on the code — see the counterexample.) -/
theorem claim_C6 (dec : SdObjectDecoder) (o : JObj) (discs : List Bytes) (out : JObj)
    (hok : dec.decode o discs = .ok out) :
    JObj.lookup out sdKey = none ∧ JObj.lookup out sdAlgKey = none := by
  unfold SdObjectDecoder.decode at hok
  cases hdh : determine_hasher dec o with
  | error e => rw [hdh] at hok; exact absurd hok (by simp)
  | ok h =>
    rw [hdh] at hok
    dsimp only [] at hok
    cases hbm : build_disclosure_map h discs [] with
    | error e => rw [hbm] at hok; exact absurd hok (by simp)
    | ok m =>
      rw [hbm] at hok
      dsimp only [] at hok
      cases hdo : decode_object m o [] with
      | error e => rw [hdo] at hok; exact absurd hok (by simp)
      | ok pr =>
        obtain ⟨decoded, p⟩ := pr
        rw [hdo] at hok
        dsimp only [] at hok
        by_cases hlen : p.length ≠ discs.length
        · rw [if_pos hlen] at hok
          exact absurd hok (by simp)
        · rw [if_neg hlen] at hok
          simp only [Except.ok.injEq] at hok
          subst hok
          constructor
          · rw [lookup_erase_ne _ _ _ (by decide)]
            have hroot : decode_entries (decodeValueAtFuel m (m.length + 1)) m o o [] =
                .ok (decoded, p) := hdo
            refine decode_entries_no_sd _ _ o o [] decoded p hroot ?_
            by_cases hsd : JObj.lookup o sdKey = none
            · exact Or.inl hsd
            · exact Or.inr (lookup_some_mem_keys o sdKey hsd)
          · exact lookup_erase_self _ _

/-- Claim C6 witness: a concrete successful decode, at whose output the
theorem's two lookups are indeed absent. -/
theorem claim_C6_witness :
    SdObjectDecoder.new_with_sha256.decode
        [(sdAlgKey, Json.str shaAlgName), (bytes "a", Json.num 1)] [] =
      .ok [(bytes "a", Json.num 1)] ∧
    JObj.lookup [(bytes "a", Json.num 1)] sdKey = none ∧
    JObj.lookup [(bytes "a", Json.num 1)] sdAlgKey = none :=
  ⟨by decide,
    claim_C6 SdObjectDecoder.new_with_sha256
      [(sdAlgKey, Json.str shaAlgName), (bytes "a", Json.num 1)] []
      [(bytes "a", Json.num 1)] (by decide)⟩

/-- Claim C6 counterexample: decoding `{"a": {"_sd": ["x"]}}` with no
disclosures succeeds and the output still carries the nested `_sd` with its
digest: the reserved key survives below the top level. -/
theorem claim_C6_counterexample :
    SdObjectDecoder.new_with_sha256.decode
        [(bytes "a", Json.obj [(sdKey, Json.arr [Json.str (bytes "x")])])] [] =
      .ok [(bytes "a", Json.obj [(sdKey, Json.arr [Json.str (bytes "x")])])] ∧
    (Json.obj [(sdKey, Json.arr [Json.str (bytes "x")])]).getKey sdKey ≠ none := by
  decide

/-- Claim C7 counterexample: the digest `"x"` appears twice in `_sd`, yet with
no disclosures supplied the decode *succeeds* (unknown digests are skipped
before the duplicate check can record them), instead of failing with
`DuplicateDigestError`. -/
theorem claim_C7_counterexample :
    SdObjectDecoder.new_with_sha256.decode
        [(sdKey, Json.arr [Json.str (bytes "x"), Json.str (bytes "x")])] [] = .ok [] := by
  decide

/-- Claim C9 (amended): an array-element object whose *first* entry is the
`...` marker and which has at least one additional entry makes
`decode_array` fail with `InvalidArrayDisclosureObject`, whatever the
additional entries and the marker's value are. -/
theorem claim_C9 (jump : Jump) (m : DMap) (v : Json) (kv : Bytes × Json)
    (kvs : List (Bytes × Json)) (rest : List Json) (p : List Bytes) :
    decode_array_core jump m (Json.obj ((dotsKey, v) :: kv :: kvs) :: rest) p =
      .error .InvalidArrayDisclosureObject := by
  simp [decode_array_core]

/-- Claim C9 counterexample: with the marker *not* first
(`{"a": 1, "...": "x"}`), the decode succeeds — the element is treated as a
plain object — so the rejection does not hold "however the keys are
ordered". -/
theorem claim_C9_counterexample :
    SdObjectDecoder.new_with_sha256.decode
        [(bytes "t", Json.arr [Json.obj [(bytes "a", Json.num 1), (dotsKey, Json.str (bytes "x"))]])]
        [] =
      .ok [(bytes "t", Json.arr [Json.obj [(bytes "a", Json.num 1), (dotsKey, Json.str (bytes "x"))]])] := by
  decide

/-- Claim C10: when the parent object holds a non-array `_sd` and the target
exists, `conceal` returns `DataTypeMismatch` *and* the target property has
already been removed from the encoder's object — the pre-error mutation is
kept. -/
theorem claim_C10 (h : HashFn) (o : JObj) (k : Bytes) (v w : Json) (salt : Bytes)
    (hsd : JObj.lookup o sdKey = some w) (hw : ∀ xs, w ≠ .arr xs)
    (htgt : JObj.lookup o k = some v) (hk : k ≠ sdKey) :
    concealSt h o [k] salt =
      (.error (.DataTypeMismatch (bytes "invalid object: existing `_sd` type is not an array")),
        JObj.erase o k) := by
  simp only [concealSt, htgt]
  have hsd' : JObj.lookup (JObj.erase o k) sdKey = some w := by
    rw [lookup_erase_ne _ _ _ hk]; exact hsd
  unfold add_digest_to_object
  rw [hsd']
  cases w with
  | arr xs => exact absurd rfl (hw xs)
  | null => rfl
  | bool b => rfl
  | num n => rfl
  | str s => rfl
  | obj ms => rfl

/-- Claim C10 witness: a concrete encoder state with `_sd: 1` and a `k`
property; concealing `k` errors yet leaves `k` removed. -/
theorem claim_C10_witness :
    concealSt sha256EncodedDigest [(sdKey, Json.num 1), (bytes "k", Json.num 2)]
        [bytes "k"] (bytes "s") =
      (.error (.DataTypeMismatch (bytes "invalid object: existing `_sd` type is not an array")),
        [(sdKey, Json.num 1)]) := by
  have hc := claim_C10 sha256EncodedDigest [(sdKey, Json.num 1), (bytes "k", Json.num 2)]
    (bytes "k") (Json.num 2) (Json.num 1) (bytes "s") (by decide)
    (fun xs => by simp) (by decide) (by decide)
  rw [hc]
  decide

/-- Claim C3: the code violates the parse-then-serialize identity the crate's
own `round_trip_ser_des` test asserts: `Jwt::Display` re-serializes header
and payload (compact JSON, struct-field order) instead of replaying the
parsed segments, so an accepted presentation whose JWT JSON carries spaces
round-trips to different bytes.  Concretely, `"eyJhIjogMX0.e30.x~"` (header
`{"a": 1}`, with a space) is accepted and re-serializes to
`"eyJhIjoxfQ.e30.x~"`. -/
theorem claim_C3 :
    (SdJwt.parse (bytes "eyJhIjogMX0.e30.x~")).map SdJwt.presentation =
      .ok (bytes "eyJhIjoxfQ.e30.x~") ∧
    bytes "eyJhIjoxfQ.e30.x~" ≠ bytes "eyJhIjogMX0.e30.x~" := by
  decide

/-- Claim C2 counterexample: `Disclosure::new` with claim value `"~~~~~"`
produces a wire string containing `+` (standard base64 alphabet, not the
URL-safe one the claim states), and `Disclosure::parse` — which decodes
URL-safe — rejects it. -/
theorem claim_C2_counterexample :
    (exTildeDisclosure.disclosure.contains 43) = true ∧
    (Disclosure.parse exTildeDisclosure.disclosure).isOk = false := by
  decide

/-- Claim C5 counterexample: with `c` concealed inside `b`'s value and `b`
concealed inside `a`'s value, `conceal("/a")` omits `a` and `b` but *not*
`c`, even though `c`'s digest occurs in `b`'s value (and `b`'s in `a`'s):
the collection does not follow digests through other disclosures' values,
so the transitive-closure claim fails at depth two. -/
theorem claim_C5_counterexample :
    (exC5Builder.conceal (bytes "/a")).map
        (fun b => (b.disclosures_to_omit, decide (exDiscC ∈ b.finish.2))) =
      .ok ([1, 2], false) ∧
    digestOccursIn (bytes "dc") exDiscB.claim_value = true ∧
    digestOccursIn (bytes "db") exDiscA.claim_value = true := by
  decide

end SdJwtModel

namespace SdJwtModel

theorem lookup_insert_self (o : JObj) (k : Bytes) (v : Json) :
    JObj.lookup (JObj.insert o k v) k = some v := by
  induction o with
  | nil => simp [JObj.insert, JObj.lookup]
  | cons hd tl ih =>
    obtain ⟨k0, v0⟩ := hd
    by_cases h0 : k0 = k <;> simp [JObj.insert, JObj.lookup, h0, ih]

/-- Claim C4: whenever `KeyBindingJwtBuilder::finish` succeeds, the produced
KB-JWT's `sd_hash` claim is the hasher's encoded digest of the SD-JWT's full
presentation (including the trailing `~` before the empty KB slot) — and the
success itself certifies the claim's premises: `alg` is not `"none"`, no
KB-JWT was attached, and the hasher matches `_sd_alg` (default `sha-256`). -/
theorem claim_C4 (claims0 : JObj) (sd_jwt : SdJwt) (hasherName : Bytes)
    (hasher : HashFn) (alg : Bytes) (signResult : Except Bytes Bytes)
    (kb : KeyBindingJwt)
    (hok : KeyBindingJwtBuilder.finish claims0 sd_jwt hasherName hasher alg signResult =
      .ok kb) :
    kb.claims.sd_hash = hasher sd_jwt.presentation ∧
    alg ≠ bytes "none" ∧
    sd_jwt.key_binding_jwt = none ∧
    (sd_jwt.jwt.claims.sd_alg.getD shaAlgName) = hasherName := by
  unfold KeyBindingJwtBuilder.finish at hok
  by_cases h1 : alg = bytes "none"
  · rw [if_pos h1] at hok
    exact absurd hok (by simp)
  · rw [if_neg h1] at hok
    by_cases h2 : sd_jwt.key_binding_jwt.isSome
    · rw [if_pos h2] at hok
      exact absurd hok (by simp)
    · rw [if_neg h2] at hok
      by_cases h3 : (sd_jwt.jwt.claims.sd_alg.getD shaAlgName) ≠ hasherName
      · rw [if_pos h3] at hok
        exact absurd hok (by simp)
      · rw [if_neg h3] at hok
        dsimp only [] at hok
        cases hpc : parseKbClaims
            (JObj.insert claims0 (bytes "sd_hash") (.str (hasher sd_jwt.presentation))) with
        | none => rw [hpc] at hok; exact absurd hok (by simp)
        | some parsed =>
          rw [hpc] at hok
          dsimp only [] at hok
          cases signResult with
          | error e => exact absurd hok (by simp)
          | ok raw =>
            simp only [Except.ok.injEq] at hok
            subst hok
            refine ⟨?_, h1, by simpa using h2, by simpa using h3⟩
            unfold parseKbClaims at hpc
            rw [lookup_insert_self] at hpc
            split at hpc
            · simp only [Option.some.injEq] at hpc
              subst hpc
              simp_all
            · cases hpc

/-- Claim C4 witness: a concrete `finish` run whose KB-JWT carries exactly the
digest of the presentation. -/
theorem claim_C4_witness :
    KeyBindingJwtBuilder.finish
        [(bytes "iat", Json.num 4), (bytes "aud", Json.str (bytes "a")),
          (bytes "nonce", Json.str (bytes "n"))]
        exC4SdJwt shaAlgName sha256EncodedDigest (bytes "HS256") (.ok (bytes "raw")) =
      .ok exC4Kb ∧
    exC4Kb.claims.sd_hash = sha256EncodedDigest exC4SdJwt.presentation ∧
    bytes "HS256" ≠ bytes "none" ∧
    exC4SdJwt.key_binding_jwt = none ∧
    (exC4SdJwt.jwt.claims.sd_alg.getD shaAlgName) = shaAlgName :=
  ⟨by decide,
    claim_C4
      [(bytes "iat", Json.num 4), (bytes "aud", Json.str (bytes "a")),
        (bytes "nonce", Json.str (bytes "n"))]
      exC4SdJwt shaAlgName sha256EncodedDigest (bytes "HS256") (.ok (bytes "raw"))
      exC4Kb (by decide)⟩

end SdJwtModel

namespace SdJwtModel

/-! ## The processed-digest discipline (backbone of C7 and C8) -/

theorem freshExt_refl (m : DMap) (p : List Bytes) : FreshExt m p p :=
  ⟨[], by simp, List.nodup_nil, by simp⟩

theorem freshExt_trans {m : DMap} {p p1 p2 : List Bytes}
    (h1 : FreshExt m p p1) (h2 : FreshExt m p1 p2) : FreshExt m p p2 := by
  obtain ⟨q1, rfl, hnd1, hq1⟩ := h1
  obtain ⟨q2, rfl, hnd2, hq2⟩ := h2
  refine ⟨q1 ++ q2, by simp, ?_, ?_⟩
  · refine List.Nodup.append hnd1 hnd2 ?_
    intro d hd1 hd2
    exact (hq2 d hd2).1 (List.mem_append.mpr (Or.inr hd1))
  · intro d hd
    rcases List.mem_append.mp hd with h | h
    · exact hq1 d h
    · exact ⟨fun hp => (hq2 d h).1 (List.mem_append.mpr (Or.inl hp)), (hq2 d h).2⟩

theorem freshExt_push {m : DMap} {p : List Bytes} {dig : Bytes} {disc : Disclosure}
    (hnp : p.contains dig = false) (hm : DMap.lookupD m dig = some disc) :
    FreshExt m p (p ++ [dig]) := by
  refine ⟨[dig], rfl, List.nodup_singleton dig, ?_⟩
  intro d hd
  rw [List.mem_singleton] at hd
  subst hd
  constructor
  · intro hmem
    have helem : p.elem d = true := List.elem_iff.mpr hmem
    rw [show p.contains d = p.elem d from rfl, helem] at hnp
    cases hnp
  · rw [hm]; rfl

mutual

/-- Decoding one value extends the processed list within the discipline. -/
theorem decode_value_core_extends (jump : Jump) (m : DMap)
    (hj : JumpExtends m jump) :
    ∀ (v : Json) (p : List Bytes) r p',
      decode_value_core jump m v p = .ok (r, p') → FreshExt m p p'
  | .obj sub, p, r, p', hok => by
    simp only [decode_value_core] at hok
    split at hok
    · rename_i dec p1 heq
      cases hok
      exact decode_entries_extends jump m hj sub sub p _ _ heq
    · exact absurd hok (by simp)
  | .arr a, p, r, p', hok => by
    simp only [decode_value_core] at hok
    split at hok
    · rename_i xs p1 heq
      cases hok
      exact decode_array_core_extends jump m hj a p _ _ heq
    · exact absurd hok (by simp)
  | .null, p, r, p', hok => by
    simp only [decode_value_core] at hok
    cases hok
    exact freshExt_refl m p
  | .bool b, p, r, p', hok => by
    simp only [decode_value_core] at hok
    cases hok
    exact freshExt_refl m p
  | .num n, p, r, p', hok => by
    simp only [decode_value_core] at hok
    cases hok
    exact freshExt_refl m p
  | .str s, p, r, p', hok => by
    simp only [decode_value_core] at hok
    cases hok
    exact freshExt_refl m p

/-- The entry walk extends the processed list within the discipline. -/
theorem decode_entries_extends (jump : Jump) (m : DMap)
    (hj : JumpExtends m jump) :
    ∀ (l : List (Bytes × Json)) (out : JObj) (p : List Bytes) out' p',
      decode_entries jump m l out p = .ok (out', p') → FreshExt m p p'
  | [], out, p, out', p', hok => by
    simp only [decode_entries] at hok
    cases hok
    exact freshExt_refl m p
  | (k, v) :: rest, out, p, out', p', hok => by
    simp only [decode_entries] at hok
    by_cases hk : k = sdKey
    · rw [if_pos hk] at hok
      split at hok
      · rename_i ds
        split at hok
        · rename_i out1 p1 heq
          exact freshExt_trans (decode_digests_extends jump m hj ds out p _ _ heq)
            (decode_entries_extends jump m hj rest _ _ _ _ hok)
        · exact absurd hok (by simp)
      · exact absurd hok (by simp)
    · rw [if_neg hk] at hok
      split at hok
      · rename_i dec p1 heq
        exact freshExt_trans (decode_value_core_extends jump m hj v p _ _ heq)
          (decode_entries_extends jump m hj rest _ _ _ _ hok)
      · rename_i dec p1 heq
        exact freshExt_trans (decode_value_core_extends jump m hj v p _ _ heq)
          (decode_entries_extends jump m hj rest _ _ _ _ hok)
      · rename_i w p1 heq
        exact freshExt_trans (decode_value_core_extends jump m hj v p _ _ heq)
          (decode_entries_extends jump m hj rest _ _ _ _ hok)
      · exact absurd hok (by simp)

/-- The `_sd` digest loop extends the processed list within the discipline. -/
theorem decode_digests_extends (jump : Jump) (m : DMap)
    (hj : JumpExtends m jump) :
    ∀ (ds : List Json) (out : JObj) (p : List Bytes) out' p',
      decode_digests jump m ds out p = .ok (out', p') → FreshExt m p p'
  | [], out, p, out', p', hok => by
    simp only [decode_digests] at hok
    cases hok
    exact freshExt_refl m p
  | d :: ds, out, p, out', p', hok => by
    simp only [decode_digests] at hok
    split at hok
    · rename_i dig
      split at hok
      · exact absurd hok (by simp)
      · rename_i hcont
        split at hok
        · rename_i disc hlook
          split at hok
          · rename_i name hname
            split at hok
            · exact absurd hok (by simp)
            · rename_i hcoll
              split at hok
              · rename_i rv p2 hjump
                refine freshExt_trans (freshExt_push ?_ hlook) ?_
                · simpa using hcont
                · exact freshExt_trans (hj _ _ _ _ hjump)
                    (decode_digests_extends jump m hj ds _ _ _ _ hok)
              · exact absurd hok (by simp)
          · exact absurd hok (by simp)
        · exact decode_digests_extends jump m hj ds _ _ _ _ hok
    · exact absurd hok (by simp)

/-- The array walk extends the processed list within the discipline. -/
theorem decode_array_core_extends (jump : Jump) (m : DMap)
    (hj : JumpExtends m jump) :
    ∀ (a : List Json) (p : List Bytes) r p',
      decode_array_core jump m a p = .ok (r, p') → FreshExt m p p'
  | [], p, r, p', hok => by
    simp only [decode_array_core] at hok
    cases hok
    exact freshExt_refl m p
  | v :: rest, p, r, p', hok => by
    cases v with
    | obj o =>
      simp only [decode_array_core] at hok
      split at hok
      · exact decode_array_core_extends jump m hj rest _ _ _ hok
      · rename_i k0 v0 hhead
        split at hok
        · split at hok
          · exact absurd hok (by simp)
          · split at hok
            · rename_i dig
              split at hok
              · exact absurd hok (by simp)
              · rename_i hcont
                split at hok
                · rename_i disc hlook
                  split at hok
                  · exact absurd hok (by simp)
                  · rename_i hnm
                    split at hok
                    · rename_i rv p2 hjump
                      split at hok
                      · rename_i xs p3 hrest
                        cases hok
                        refine freshExt_trans (freshExt_push ?_ hlook) ?_
                        · simpa using hcont
                        · exact freshExt_trans (hj _ _ _ _ hjump)
                            (decode_array_core_extends jump m hj rest _ _ _ hrest)
                      · exact absurd hok (by simp)
                    · exact absurd hok (by simp)
                · exact decode_array_core_extends jump m hj rest _ _ _ hok
            · exact absurd hok (by simp)
        · split at hok
          · rename_i dec p1 hent
            split at hok
            · rename_i xs p2 hrest
              cases hok
              exact freshExt_trans (decode_entries_extends jump m hj o o p _ _ hent)
                (decode_array_core_extends jump m hj rest _ _ _ hrest)
            · exact absurd hok (by simp)
          · exact absurd hok (by simp)
    | arr a2 =>
      simp only [decode_array_core] at hok
      split at hok
      · rename_i dec p1 hsub
        split at hok
        · rename_i xs p2 hrest
          cases hok
          exact freshExt_trans (decode_array_core_extends jump m hj a2 p _ _ hsub)
            (decode_array_core_extends jump m hj rest _ _ _ hrest)
        · exact absurd hok (by simp)
      · exact absurd hok (by simp)
    | null =>
      simp only [decode_array_core] at hok
      split at hok
      · rename_i xs p1 hrest
        cases hok
        exact decode_array_core_extends jump m hj rest _ _ _ hrest
      · exact absurd hok (by simp)
    | bool b =>
      simp only [decode_array_core] at hok
      split at hok
      · rename_i xs p1 hrest
        cases hok
        exact decode_array_core_extends jump m hj rest _ _ _ hrest
      · exact absurd hok (by simp)
    | num n =>
      simp only [decode_array_core] at hok
      split at hok
      · rename_i xs p1 hrest
        cases hok
        exact decode_array_core_extends jump m hj rest _ _ _ hrest
      · exact absurd hok (by simp)
    | str s =>
      simp only [decode_array_core] at hok
      split at hok
      · rename_i xs p1 hrest
        cases hok
        exact decode_array_core_extends jump m hj rest _ _ _ hrest
      · exact absurd hok (by simp)

end

/-- Recursion into disclosure values respects the discipline at any fuel. -/
theorem decodeValueAtFuel_extends (m : DMap) :
    ∀ f, JumpExtends m (decodeValueAtFuel m f) := by
  intro f
  induction f with
  | zero => intro v p rv p2 h; exact absurd h (by simp [decodeValueAtFuel])
  | succ f ih =>
    intro v p rv p2 h
    simp only [decodeValueAtFuel] at h
    split at h
    · rename_i w p' heq
      cases h
      exact decode_value_core_extends _ m ih v p _ _ heq
    · rename_i dec p' heq
      cases h
      exact decode_value_core_extends _ m ih v p _ _ heq
    · rename_i xs p' heq
      cases h
      exact decode_value_core_extends _ m ih v p _ _ heq
    · exact absurd h (by simp)

/-- The top-level walk consumes a duplicate-free batch of mapped digests. -/
theorem decode_object_extends (m : DMap) (o : JObj) (decoded : JObj) (p : List Bytes)
    (hok : decode_object m o [] = .ok (decoded, p)) :
    p.Nodup ∧ ∀ d ∈ p, (DMap.lookupD m d).isSome := by
  have h := decode_entries_extends _ m (decodeValueAtFuel_extends m _) o o [] decoded p hok
  obtain ⟨q, hq, hnd, hmem⟩ := h
  simp only [List.nil_append] at hq
  subst hq
  exact ⟨hnd, fun d hd => (hmem d hd).2⟩

end SdJwtModel

namespace SdJwtModel

/-! ## Unused disclosures (C8) -/

theorem insertD_length_le (m : DMap) (k : Bytes) (d : Disclosure) :
    (DMap.insertD m k d).length ≤ m.length + 1 := by
  induction m with
  | nil => simp [DMap.insertD]
  | cons hd tl ih =>
    obtain ⟨k0, d0⟩ := hd
    by_cases h : k0 = k
    · simp [DMap.insertD, h]
    · simp only [DMap.insertD, if_neg h, List.length_cons]
      omega

theorem build_disclosure_map_length (h : HashFn) :
    ∀ (ws : List Bytes) (acc m : DMap),
      build_disclosure_map h ws acc = .ok m → m.length ≤ acc.length + ws.length := by
  intro ws
  induction ws with
  | nil =>
    intro acc m hok
    simp only [build_disclosure_map] at hok
    cases hok
    simp
  | cons w rest ih =>
    intro acc m hok
    simp only [build_disclosure_map] at hok
    split at hok
    · rename_i pd hpd
      have := ih _ _ hok
      have := insertD_length_le acc (h w) pd
      simp only [List.length_cons]
      omega
    · exact absurd hok (by simp)

theorem lookupD_isSome_mem (m : DMap) (d : Bytes) :
    (DMap.lookupD m d).isSome → d ∈ m.map Prod.fst := by
  induction m with
  | nil => intro h; simp [DMap.lookupD] at h
  | cons hd tl ih =>
    obtain ⟨k0, d0⟩ := hd
    intro h
    by_cases h0 : k0 = d
    · simp [h0]
    · simp only [DMap.lookupD, if_neg h0] at h
      simp [ih h]

/-- Claim C8: whenever the decode walk finishes having consumed fewer digests
than disclosures were supplied, `decode` fails with `UnusedDisclosures`
carrying exactly the number of unconsumed disclosures — and "fewer" is the
only possibility, since each consumed digest is fresh and backed by a
distinct map entry. -/
theorem claim_C8 (dec : SdObjectDecoder) (o : JObj) (discs : List Bytes)
    (h : HashFn) (m : DMap) (decoded : JObj) (p : List Bytes)
    (hdh : determine_hasher dec o = .ok h)
    (hbm : build_disclosure_map h discs [] = .ok m)
    (hdo : decode_object m o [] = .ok (decoded, p))
    (hne : p.length ≠ discs.length) :
    dec.decode o discs = .error (.UnusedDisclosures (discs.length - p.length)) ∧
    p.length < discs.length := by
  have hlt : p.length < discs.length := by
    obtain ⟨hnd, hmem⟩ := decode_object_extends m o decoded p hdo
    have hsub : p ⊆ m.map Prod.fst := fun d hd => lookupD_isSome_mem m d (hmem d hd)
    have h1 : p.toFinset.card = p.length := List.toFinset_card_of_nodup hnd
    have h2 : p.toFinset ⊆ (m.map Prod.fst).toFinset := by
      intro x hx
      simp only [List.mem_toFinset] at hx ⊢
      exact hsub hx
    have h3 := Finset.card_le_card h2
    have h4 : (m.map Prod.fst).toFinset.card ≤ (m.map Prod.fst).length :=
      (m.map Prod.fst).toFinset_card_le
    have h5 : (m.map Prod.fst).length = m.length := List.length_map _ _
    have h6 := build_disclosure_map_length h discs [] m hbm
    simp only [List.length_nil, Nat.zero_add] at h6
    omega
  refine ⟨?_, hlt⟩
  unfold SdObjectDecoder.decode
  rw [hdh]
  dsimp only []
  rw [hbm]
  dsimp only []
  rw [hdo]
  dsimp only []
  rw [if_pos hne]

/-- Claim C8 witness: one referenced digest, two supplied disclosures — the
decode fails with `UnusedDisclosures 1`. -/
theorem claim_C8_witness :
    exC8dec.decode exC8obj [exC8w1, exC8w2] =
      .error (.UnusedDisclosures ([exC8w1, exC8w2].length - exC8p.length)) ∧
    exC8p.length < [exC8w1, exC8w2].length ∧
    [exC8w1, exC8w2].length - exC8p.length = 1 := by
  have hc := claim_C8 exC8dec exC8obj [exC8w1, exC8w2] exC8hash exC8m exC8decoded exC8p
    (by rfl) (by rfl) (by rfl) (by decide)
  exact ⟨hc.1, hc.2, by decide⟩

end SdJwtModel

namespace SdJwtModel

/-! ## Sub-disclosure collection vs digest occurrence (C5) -/

mutual

/-- On well-shaped values, the collected sub-disclosure positions are exactly
the mapped positions of digests occurring in the value tree. -/
theorem gas_mem (m : IMap) :
    ∀ (v : Json), dotsOk v = true → ∀ j,
      (j ∈ get_all_sub_disclosures m v ↔
        ∃ dig, digestOccursIn dig v = true ∧ IMap.idxOf m dig = some j)
  | .obj o, hwf, j => by
    have hvals := gasValues_mem m o (by simpa [dotsOk] using hwf) j
    simp only [get_all_sub_disclosures, List.mem_append, digestOccursIn, Bool.or_eq_true]
    cases hsd : JObj.lookup o sdKey with
    | none =>
      simp only [hsd]
      constructor
      · intro hj
        rcases hj with hj | hj
        · simp at hj
        · obtain ⟨dig, hocc, hidx⟩ := hvals.mp hj
          exact ⟨dig, Or.inr hocc, hidx⟩
      · rintro ⟨dig, hocc | hocc, hidx⟩
        · simp at hocc
        · exact Or.inr (hvals.mpr ⟨dig, hocc, hidx⟩)
    | some w =>
      cases w with
      | arr vs =>
        simp only [hsd]
        constructor
        · intro hj
          rcases hj with hj | hj
          · rw [List.mem_filterMap] at hj
            obtain ⟨x, hx, hfx⟩ := hj
            cases x with
            | str dig =>
              exact ⟨dig, Or.inl (List.elem_iff.mpr hx), hfx⟩
            | null => cases hfx
            | bool b2 => cases hfx
            | num n2 => cases hfx
            | arr a2 => cases hfx
            | obj o2 => cases hfx
          · obtain ⟨dig, hocc, hidx⟩ := hvals.mp hj
            exact ⟨dig, Or.inr hocc, hidx⟩
        · rintro ⟨dig, hocc | hocc, hidx⟩
          · left
            rw [List.mem_filterMap]
            exact ⟨Json.str dig, List.elem_iff.mp hocc, hidx⟩
          · exact Or.inr (hvals.mpr ⟨dig, hocc, hidx⟩)
      | null =>
        simp only [hsd]
        constructor
        · intro hj
          rcases hj with hj | hj
          · simp at hj
          · obtain ⟨dig, hocc, hidx⟩ := hvals.mp hj
            exact ⟨dig, Or.inr hocc, hidx⟩
        · rintro ⟨dig, hocc | hocc, hidx⟩
          · simp at hocc
          · exact Or.inr (hvals.mpr ⟨dig, hocc, hidx⟩)
      | bool b2 =>
        simp only [hsd]
        constructor
        · intro hj
          rcases hj with hj | hj
          · simp at hj
          · obtain ⟨dig, hocc, hidx⟩ := hvals.mp hj
            exact ⟨dig, Or.inr hocc, hidx⟩
        · rintro ⟨dig, hocc | hocc, hidx⟩
          · simp at hocc
          · exact Or.inr (hvals.mpr ⟨dig, hocc, hidx⟩)
      | num n2 =>
        simp only [hsd]
        constructor
        · intro hj
          rcases hj with hj | hj
          · simp at hj
          · obtain ⟨dig, hocc, hidx⟩ := hvals.mp hj
            exact ⟨dig, Or.inr hocc, hidx⟩
        · rintro ⟨dig, hocc | hocc, hidx⟩
          · simp at hocc
          · exact Or.inr (hvals.mpr ⟨dig, hocc, hidx⟩)
      | str s2 =>
        simp only [hsd]
        constructor
        · intro hj
          rcases hj with hj | hj
          · simp at hj
          · obtain ⟨dig, hocc, hidx⟩ := hvals.mp hj
            exact ⟨dig, Or.inr hocc, hidx⟩
        · rintro ⟨dig, hocc | hocc, hidx⟩
          · simp at hocc
          · exact Or.inr (hvals.mpr ⟨dig, hocc, hidx⟩)
      | obj o2 =>
        simp only [hsd]
        constructor
        · intro hj
          rcases hj with hj | hj
          · simp at hj
          · obtain ⟨dig, hocc, hidx⟩ := hvals.mp hj
            exact ⟨dig, Or.inr hocc, hidx⟩
        · rintro ⟨dig, hocc | hocc, hidx⟩
          · simp at hocc
          · exact Or.inr (hvals.mpr ⟨dig, hocc, hidx⟩)
  | .arr a, hwf, j => by
    simp only [get_all_sub_disclosures]
    have := gasElems_mem m a (by simpa [dotsOk] using hwf) j
    simpa [digestOccursIn] using this
  | .null, hwf, j => by simp [get_all_sub_disclosures, digestOccursIn]
  | .bool b, hwf, j => by simp [get_all_sub_disclosures, digestOccursIn]
  | .num n, hwf, j => by simp [get_all_sub_disclosures, digestOccursIn]
  | .str s, hwf, j => by simp [get_all_sub_disclosures, digestOccursIn]

/-- The object-values side of `gas_mem`. -/
theorem gasValues_mem (m : IMap) :
    ∀ (l : List (Bytes × Json)), dotsOkValues l = true → ∀ j,
      (j ∈ gasValues m l ↔
        ∃ dig, digOccValues dig l = true ∧ IMap.idxOf m dig = some j)
  | [], hwf, j => by simp [gasValues, digOccValues]
  | (k, w) :: rest, hwf, j => by
    simp only [dotsOkValues, Bool.and_eq_true] at hwf
    have h1 := gas_mem m w hwf.1 j
    have h2 := gasValues_mem m rest hwf.2 j
    simp only [gasValues, List.mem_append, digOccValues, Bool.or_eq_true, h1, h2]
    constructor
    · rintro (⟨dig, h, hi⟩ | ⟨dig, h, hi⟩)
      · exact ⟨dig, Or.inl h, hi⟩
      · exact ⟨dig, Or.inr h, hi⟩
    · rintro ⟨dig, h | h, hi⟩
      · exact Or.inl ⟨dig, h, hi⟩
      · exact Or.inr ⟨dig, h, hi⟩

/-- The array-elements side of `gas_mem`. -/
theorem gasElems_mem (m : IMap) :
    ∀ (a : List Json), dotsOkElems a = true → ∀ j,
      (j ∈ gasElems m a ↔
        ∃ dig, digOccElems dig a = true ∧ IMap.idxOf m dig = some j)
  | [], hwf, j => by simp [gasElems, digOccElems]
  | el :: rest, hwf, j => by
    simp only [dotsOkElems, Bool.and_eq_true] at hwf
    have h2 := gasElems_mem m rest hwf.2 j
    simp only [gasElems, List.mem_append, digOccElems, Bool.or_eq_true, h2]
    have hhead : (j ∈ (match el with
        | .obj _ =>
          (match el.getKey dotsKey with
           | some (.str dig) =>
             (match IMap.idxOf m dig with
              | some i => [i]
              | none => get_all_sub_disclosures m el)
           | _ => get_all_sub_disclosures m el)
        | _ => ([] : List Nat))) ↔
        ∃ dig, (match el with
          | .obj _ =>
            (match el.getKey dotsKey with
             | some (.str d) => d = dig || digestOccursIn dig el
             | _ => digestOccursIn dig el)
          | _ => false) = true ∧ IMap.idxOf m dig = some j := by
      cases el with
      | obj o =>
        have hwfo := hwf.1
        cases hdk : Json.getKey (.obj o) dotsKey with
        | none =>
          rw [hdk] at hwfo
          simp only [hdk]
          simpa using gas_mem m (.obj o) hwfo j
        | some dv =>
          rw [hdk] at hwfo
          cases dv with
          | str d0 =>
            simp only [hdk]
            have hsingle : o.length = 1 := by simpa using hwfo
            have hocc0 : ∀ dig, digestOccursIn dig (.obj o) = false := by
              intro dig
              match o, hsingle with
              | [(k1, v1)], _ =>
                have hk1 : v1 = Json.str d0 := by
                  simp only [Json.getKey, JObj.lookup] at hdk
                  by_cases hk : k1 = dotsKey
                  · rw [if_pos hk] at hdk
                    simpa using hdk
                  · rw [if_neg hk] at hdk
                    cases hdk
                subst hk1
                by_cases hks : k1 = sdKey
                · subst hks
                  simp [digestOccursIn, digOccValues, JObj.lookup]
                · simp [digestOccursIn, digOccValues, JObj.lookup, hks]
            cases hidx : IMap.idxOf m d0 with
            | some i =>
              simp only [hidx]
              constructor
              · intro hj
                simp only [List.mem_singleton] at hj
                subst hj
                exact ⟨d0, by simp [hocc0], hidx⟩
              · rintro ⟨dig, hd, hi⟩
                simp only [hocc0, Bool.or_eq_false_iff] at hd
                have hdd : d0 = dig := by simpa [hocc0 dig] using hd
                subst hdd
                rw [hidx] at hi
                simp only [Option.some.injEq] at hi
                simp [hi]
            | none =>
              simp only [hidx]
              have hwf1 : dotsOk (Json.obj o) = true := by
                match o, hsingle with
                | [(k1, v1)], _ =>
                  have hk1 : v1 = Json.str d0 := by
                    simp only [Json.getKey, JObj.lookup] at hdk
                    by_cases hk : k1 = dotsKey
                    · rw [if_pos hk] at hdk
                      simpa using hdk
                    · rw [if_neg hk] at hdk
                      cases hdk
                  subst hk1
                  simp [dotsOk, dotsOkValues]
              have hgas := gas_mem m (.obj o) hwf1 j
              rw [hgas]
              constructor
              · rintro ⟨dig, hd, hi⟩
                exact ⟨dig, by simp [hd], hi⟩
              · rintro ⟨dig, hd, hi⟩
                simp only [Bool.or_eq_true] at hd
                rcases hd with hd | hd
                · have hdd : d0 = dig := by simpa using hd
                  subst hdd
                  rw [hidx] at hi
                  cases hi
                · exact ⟨dig, hd, hi⟩
          | null =>
            simp only [hdk]
            simpa using gas_mem m (.obj o) hwfo j
          | bool b2 =>
            simp only [hdk]
            simpa using gas_mem m (.obj o) hwfo j
          | num n2 =>
            simp only [hdk]
            simpa using gas_mem m (.obj o) hwfo j
          | arr a2 =>
            simp only [hdk]
            simpa using gas_mem m (.obj o) hwfo j
          | obj o2 =>
            simp only [hdk]
            simpa using gas_mem m (.obj o) hwfo j
      | arr a2 => simp
      | null => simp
      | bool b2 => simp
      | num n2 => simp
      | str s2 => simp
    rw [hhead]
    constructor
    · rintro (⟨dig, h, hi⟩ | ⟨dig, h, hi⟩)
      · exact ⟨dig, Or.inl h, hi⟩
      · exact ⟨dig, Or.inr h, hi⟩
    · rintro ⟨dig, h | h, hi⟩
      · exact Or.inl ⟨dig, h, hi⟩
      · exact Or.inr ⟨dig, h, hi⟩

end

end SdJwtModel

namespace SdJwtModel

/-- Membership in a `HashSet`-style insert. -/
theorem mem_hsInsert (s : List Nat) (x y : Nat) :
    y ∈ hsInsert s x ↔ y ∈ s ∨ y = x := by
  unfold hsInsert
  split
  · rename_i hc
    constructor
    · exact fun h => Or.inl h
    · rintro (h | h)
      · exact h
      · subst h
        simpa using hc
  · simp [List.mem_append]

/-- Membership in a `HashSet`-style extend. -/
theorem mem_hsExtend (xs : List Nat) : ∀ (s : List Nat) (y : Nat),
    y ∈ hsExtend s xs ↔ y ∈ s ∨ y ∈ xs := by
  induction xs with
  | nil =>
    intro s y
    simp [hsExtend]
  | cons x rest ih =>
    intro s y
    have hstep : hsExtend s (x :: rest) = hsExtend (hsInsert s x) rest := rfl
    rw [hstep, ih, mem_hsInsert]
    simp only [List.mem_cons]
    tauto

/-- Claim C5 (amended): when the path resolves through a final disclosure at
position `ref` to a value with well-shaped `...` markers, a successful
`conceal` extends the omission set by exactly `ref` together with the mapped
positions of the digests occurring in that value tree itself — digests
reachable only through *other* disclosures\x27 values are not added. -/
theorem claim_C5 (b b2 : SdJwtPresentationBuilder) (path : Bytes)
    (value : Json) (visited : List Nat) (ref : Nat)
    (htrav : traverse_disclosable_object b.object (pbSegments path) b.disclosures
      = some (value, visited))
    (href : visited.getLast? = some ref)
    (hwf : dotsOk value = true)
    (hok : b.conceal path = .ok b2) :
    ∀ j, j ∈ b2.disclosures_to_omit ↔
      j ∈ b.disclosures_to_omit ∨
      (∃ dig, digestOccursIn dig value = true ∧
        IMap.idxOf b.disclosures dig = some j) ∨
      j = ref := by
  intro j
  have hfd : find_disclosure_and_sub b.object path b.disclosures
      = .ok (get_all_sub_disclosures b.disclosures value ++ [ref]) := by
    unfold find_disclosure_and_sub
    rw [htrav]
    dsimp only []
    rw [href]
  unfold SdJwtPresentationBuilder.conceal at hok
  rw [hfd] at hok
  dsimp only [] at hok
  injection hok with h
  subst h
  dsimp only []
  rw [mem_hsExtend, List.mem_append, List.mem_singleton,
    gas_mem b.disclosures value hwf j]

/-- Claim C5 witness: on the three-level builder, `conceal("/a")` resolves to
disclosure `a` (position 2) with value concealing `b` (position 1); position 1
enters the omission set via a digest occurring directly in `a`\x27s value. -/
theorem claim_C5_witness :
    traverse_disclosable_object exC5Builder.object (pbSegments (bytes ("/a")))
        exC5Builder.disclosures = some (exDiscA.claim_value, [2]) ∧
    ([2] : List Nat).getLast? = some 2 ∧
    dotsOk exDiscA.claim_value = true ∧
    exC5Builder.conceal (bytes ("/a")) = .ok exC5After ∧
    ((1 : Nat) ∈ exC5After.disclosures_to_omit ↔
      1 ∈ exC5Builder.disclosures_to_omit ∨
      (∃ dig, digestOccursIn dig exDiscA.claim_value = true ∧
        IMap.idxOf exC5Builder.disclosures dig = some 1) ∨
      (1 : Nat) = 2) :=
  ⟨by decide, by decide, by decide, by decide,
    claim_C5 exC5Builder exC5After (bytes ("/a")) exDiscA.claim_value [2] 2
      (by decide) (by decide) (by decide) (by decide) 1⟩

end SdJwtModel

namespace SdJwtModel

/-- Claim C7 (amended): the duplicate check guards *consumed* digests: a
digest already in the processed list is rejected with `DuplicateDigestError`
at both sites — in an `_sd` array and as a `\x7b"...": digest\x7d` array
element — and, since only digests with a matching disclosure are ever
recorded, a successful decode consumes every matched digest at most once.
A digest with no matching disclosure is skipped without being recorded, so
repeating it is not detected (see the counterexample). -/
theorem claim_C7 (jump : Jump) (m : DMap) (dig : Bytes) (p : List Bytes)
    (hp : p.contains dig = true) :
    (∀ ds out, decode_digests jump m (Json.str dig :: ds) out p =
      .error (.DuplicateDigestError dig)) ∧
    (∀ rest, decode_array_core jump m (Json.obj [(dotsKey, Json.str dig)] :: rest) p =
      .error (.DuplicateDigestError dig)) ∧
    (∀ o decoded q, decode_object m o [] = .ok (decoded, q) → q.Nodup) := by
  refine ⟨?_, ?_, ?_⟩
  · intro ds out
    simp only [decode_digests]
    rw [if_pos hp]
  · intro rest
    simp only [decode_array_core, List.head?, if_true]
    rw [if_neg]
    · rw [if_pos hp]
    · simp
  · intro o decoded q hok
    exact (decode_object_extends m o decoded q hok).1

/-- Claim C7 witness: with digest `"x"` already processed, both decode sites
reject it as a duplicate. -/
theorem claim_C7_witness :
    decode_digests (decodeValueAtFuel [] 1) [] [Json.str (bytes ("x"))] []
        [bytes ("x")] = .error (.DuplicateDigestError (bytes ("x"))) ∧
    decode_array_core (decodeValueAtFuel [] 1) []
        [Json.obj [(dotsKey, Json.str (bytes ("x")))]] [bytes ("x")] =
      .error (.DuplicateDigestError (bytes ("x"))) :=
  have hc := claim_C7 (decodeValueAtFuel [] 1) [] (bytes ("x")) [bytes ("x")]
    (by decide)
  ⟨hc.1 [] [], hc.2.1 []⟩

end SdJwtModel

namespace SdJwtModel

/-! ## Number rendering round-trip -/

theorem skipWs_cons_of_not_ws (b : Nat) (tl : Bytes) (hb : isWsB b = false) :
    skipWs (b :: tl) = b :: tl := by
  simp [skipWs, hb]

theorem natDigitsAux_digits : ∀ (f n : Nat) (acc : Bytes),
    (∀ b ∈ acc, isDigitB b = true) → ∀ b ∈ natDigitsAux f n acc, isDigitB b = true
  | 0, n, acc, hacc => by
    intro b hb
    simp only [natDigitsAux, List.mem_cons] at hb
    rcases hb with rfl | hb
    · simp only [isDigitB, Bool.and_eq_true, decide_eq_true_eq]
      omega
    · exact hacc b hb
  | f + 1, n, acc, hacc => by
    intro b hb
    simp only [natDigitsAux] at hb
    by_cases h : n < 10
    · rw [if_pos h] at hb
      rcases List.mem_cons.mp hb with rfl | hb
      · simp only [isDigitB, Bool.and_eq_true, decide_eq_true_eq]
        omega
      · exact hacc b hb
    · rw [if_neg h] at hb
      refine natDigitsAux_digits f (n / 10) _ ?_ b hb
      intro b2 hb2
      rcases List.mem_cons.mp hb2 with rfl | hb2
      · simp only [isDigitB, Bool.and_eq_true, decide_eq_true_eq]
        omega
      · exact hacc b2 hb2

theorem natDigitsAux_ne_nil : ∀ (f n : Nat) (acc : Bytes), natDigitsAux f n acc ≠ []
  | 0, _, _ => by simp [natDigitsAux]
  | f + 1, n, acc => by
    simp only [natDigitsAux]
    by_cases h : n < 10
    · simp [h]
    · rw [if_neg h]
      exact natDigitsAux_ne_nil f (n / 10) _

theorem natDigitsAux_append : ∀ (f n : Nat) (acc : Bytes),
    natDigitsAux f n acc = natDigitsAux f n [] ++ acc
  | 0, n, acc => by simp [natDigitsAux]
  | f + 1, n, acc => by
    by_cases h : n < 10
    · simp [natDigitsAux, h]
    · simp only [natDigitsAux, if_neg h]
      rw [natDigitsAux_append f (n / 10) ((48 + n % 10) :: acc),
        natDigitsAux_append f (n / 10) [48 + n % 10]]
      simp

theorem foldl_digits_natDigitsAux : ∀ (f n init : Nat), n ≤ f →
    List.foldl (fun acc b => acc * 10 + (b - 48)) init (natDigitsAux f n []) =
      init * 10 ^ (natDigitsAux f n []).length + n
  | 0, n, init, hn => by
    have hn0 : n = 0 := Nat.le_zero.mp hn
    subst hn0
    simp [natDigitsAux]
  | f + 1, n, init, hn => by
    by_cases h : n < 10
    · simp only [natDigitsAux, if_pos h, List.foldl_cons, List.foldl_nil,
        List.length_cons, List.length_nil, pow_one]
      have hmod : n % 10 = n := Nat.mod_eq_of_lt h
      omega
    · simp only [natDigitsAux, if_neg h]
      rw [natDigitsAux_append f (n / 10) [48 + n % 10]]
      rw [List.foldl_append]
      have hdiv : n / 10 ≤ f := by omega
      rw [foldl_digits_natDigitsAux f (n / 10) init hdiv]
      simp only [List.foldl_cons, List.foldl_nil, List.length_append,
        List.length_cons, List.length_nil]
      have h48 : 48 + n % 10 - 48 = n % 10 := by omega
      rw [h48, pow_succ]
      have h2 : n / 10 * 10 + n % 10 = n := by omega
      calc (init * 10 ^ (natDigitsAux f (n / 10) []).length + n / 10) * 10 + n % 10
          = init * (10 ^ (natDigitsAux f (n / 10) []).length * 10) +
              (n / 10 * 10 + n % 10) := by ring
        _ = init * (10 ^ (natDigitsAux f (n / 10) []).length * 10) + n := by rw [h2]

theorem digitsToNat_natDigits (n : Nat) : digitsToNat (natDigits n []) = n := by
  have h := foldl_digits_natDigitsAux n n 0 le_rfl
  simpa [digitsToNat, natDigits] using h

theorem takeDigits_append : ∀ (ds rest : Bytes), (∀ b ∈ ds, isDigitB b = true) →
    numDelim rest = true → takeDigits (ds ++ rest) = (ds, rest)
  | [], rest, _, hrest => by
    cases rest with
    | nil => simp [takeDigits]
    | cons b r =>
      have hb : isDigitB b = false := by
        simp only [numDelim, Bool.not_eq_true', Bool.or_eq_false_iff] at hrest
        exact hrest.1.1.1
      simp [takeDigits, hb]
  | d :: ds', rest, hds, hrest => by
    have hd : isDigitB d = true := hds d (by simp)
    simp only [List.cons_append, takeDigits, hd, if_true]
    simp only [List.append_eq]
    rw [takeDigits_append ds' rest (fun b hb => hds b (by simp [hb])) hrest]

end SdJwtModel

namespace SdJwtModel

theorem parseNum_digits : ∀ (ds rest : Bytes), ds ≠ [] →
    (∀ b ∈ ds, isDigitB b = true) → numDelim rest = true →
    parseNum (ds ++ rest) = some ((digitsToNat ds : Int), rest)
  | [], _, hne, _, _ => absurd rfl hne
  | d :: ds', rest, _, hdig, hrest => by
    have hd : 48 ≤ d ∧ d ≤ 57 := by
      have h := hdig d (by simp)
      simpa [isDigitB, Bool.and_eq_true, decide_eq_true_eq] using h
    have htd : takeDigits ((d :: ds') ++ rest) = (d :: ds', rest) :=
      takeDigits_append (d :: ds') rest hdig hrest
    simp only [List.cons_append] at htd
    obtain ⟨h1, h2⟩ := hd
    interval_cases d <;>
    · simp only [parseNum, List.cons_append]
      rw [htd]
      dsimp only []
      cases rest with
      | nil => simp
      | cons b r =>
        have hb : isDigitB b = false ∧ b ≠ 46 ∧ b ≠ 101 ∧ b ≠ 69 := by
          simp only [numDelim, Bool.not_eq_true', Bool.or_eq_false_iff,
            decide_eq_false_iff_not] at hrest
          exact ⟨hrest.1.1.1, hrest.1.1.2, hrest.1.2, hrest.2⟩
        split
        · rename_i heq
          exact absurd (by injection heq : b = 46) hb.2.1
        · rename_i heq
          exact absurd (by injection heq : b = 101) hb.2.2.1
        · rename_i heq
          exact absurd (by injection heq : b = 69) hb.2.2.2
        · simp

theorem parseNum_intBytes (n : Int) (rest : Bytes) (hrest : numDelim rest = true) :
    parseNum (intBytes n ++ rest) = some (n, rest) := by
  by_cases hn : n < 0
  · cases hnd : natDigits n.natAbs [] with
    | nil => exact absurd hnd (natDigitsAux_ne_nil _ _ _)
    | cons d tl =>
      have hds : ∀ b ∈ d :: tl, isDigitB b = true := by
        rw [← hnd]
        exact natDigitsAux_digits _ _ [] (by simp)
      have htd : takeDigits (d :: (tl ++ rest)) = (d :: tl, rest) := by
        have h := takeDigits_append (d :: tl) rest hds hrest
        simpa using h
      have hval : (digitsToNat (d :: tl) : Int) = -n := by
        rw [← hnd, digitsToNat_natDigits]
        omega
      simp only [intBytes, if_pos hn, natDigits] at hnd ⊢
      rw [hnd]
      simp only [List.cons_append, List.nil_append]
      simp only [parseNum]
      rw [htd]
      dsimp only []
      cases rest with
      | nil => simp [hval]
      | cons b r =>
        have hb : isDigitB b = false ∧ b ≠ 46 ∧ b ≠ 101 ∧ b ≠ 69 := by
          simp only [numDelim, Bool.not_eq_true', Bool.or_eq_false_iff,
            decide_eq_false_iff_not] at hrest
          exact ⟨hrest.1.1.1, hrest.1.1.2, hrest.1.2, hrest.2⟩
        split
        · rename_i heq
          exact absurd (by injection heq : b = 46) hb.2.1
        · rename_i heq
          exact absurd (by injection heq : b = 101) hb.2.2.1
        · rename_i heq
          exact absurd (by injection heq : b = 69) hb.2.2.2
        · simp [hval]
  · cases hnd : natDigits n.natAbs [] with
    | nil => exact absurd hnd (natDigitsAux_ne_nil _ _ _)
    | cons d tl =>
      have hds : ∀ b ∈ d :: tl, isDigitB b = true := by
        rw [← hnd]
        exact natDigitsAux_digits _ _ [] (by simp)
      have hval : (digitsToNat (d :: tl) : Int) = n := by
        rw [← hnd, digitsToNat_natDigits]
        omega
      simp only [intBytes, if_neg hn, natDigits] at hnd ⊢
      rw [hnd, List.nil_append]
      rw [parseNum_digits (d :: tl) rest (by simp) hds hrest, hval]

end SdJwtModel

namespace SdJwtModel

/-! ## String rendering round-trip -/

theorem hexVal_hexDigit (m : Nat) (hm : m < 16) : hexVal (hexDigit m) = some m := by
  have H : ∀ m, m < 16 → hexVal (hexDigit m) = some m := by decide
  exact H m hm

theorem codepointUtf8_small (b : Nat) (hb : b < 128) : codepointUtf8 b = [b] := by
  simp [codepointUtf8, hb]

theorem unesc_ctrl (b : Nat) (tl : Bytes) (hb : b < 32) :
    unesc (117 :: 48 :: 48 :: hexDigit (b / 16) :: hexDigit (b % 16) :: tl) =
      some ([b], tl) := by
  have h1 : hexVal (hexDigit (b / 16)) = some (b / 16) :=
    hexVal_hexDigit _ (by omega)
  have h2 : hexVal (hexDigit (b % 16)) = some (b % 16) :=
    hexVal_hexDigit _ (by omega)
  have h48 : hexVal 48 = some 0 := rfl
  simp only [unesc, hex4, h48, h1, h2]
  norm_num
  have harith : b / 16 * 16 + b % 16 = b := by omega
  rw [harith]
  rw [if_pos (Or.inl (by omega : b < 55296))]
  rw [codepointUtf8_small b (by omega)]

theorem parseStrBody_flatMap : ∀ (s : Bytes) (acc rest : Bytes) (fuel : Nat),
    s.length + 1 ≤ fuel →
    parseStrBody fuel acc (s.flatMap escByte ++ (34 :: rest)) = some (acc.reverse ++ s, rest)
  | [], acc, rest, fuel, hf => by
    match fuel, hf with
    | f + 1, _ => simp [parseStrBody]
  | b :: s', acc, rest, fuel, hf => by
    match fuel, hf with
    | f + 1, hf =>
      have hf' : s'.length + 1 ≤ f := by simpa using hf
      have hrec := parseStrBody_flatMap s' (b :: acc) rest f hf'
      simp only [List.flatMap_cons, List.append_assoc]
      by_cases h34 : b = 34
      · subst h34
        show parseStrBody (f + 1) acc ([92, 34] ++ (s'.flatMap escByte ++ 34 :: rest)) = _
        simp only [List.cons_append, List.nil_append, parseStrBody]
        norm_num
        show (match unesc (34 :: (s'.flatMap escByte ++ 34 :: rest)) with
          | some (out, rest2) => parseStrBody f (out.reverse ++ acc) rest2
          | none => none) = _
        rw [show unesc (34 :: (s'.flatMap escByte ++ 34 :: rest)) =
          some ([34], s'.flatMap escByte ++ 34 :: rest) from rfl]
        dsimp only []
        simpa using parseStrBody_flatMap s' (34 :: acc) rest f hf'
      · by_cases h92 : b = 92
        · subst h92
          show parseStrBody (f + 1) acc ([92, 92] ++ (s'.flatMap escByte ++ 34 :: rest)) = _
          simp only [List.cons_append, List.nil_append, parseStrBody]
          norm_num
          rw [show unesc (92 :: (s'.flatMap escByte ++ 34 :: rest)) =
            some ([92], s'.flatMap escByte ++ 34 :: rest) from rfl]
          dsimp only []
          simpa using parseStrBody_flatMap s' (92 :: acc) rest f hf'
        · by_cases h8 : b = 8
          · subst h8
            show parseStrBody (f + 1) acc ([92, 98] ++ (s'.flatMap escByte ++ 34 :: rest)) = _
            simp only [List.cons_append, List.nil_append, parseStrBody]
            norm_num
            rw [show unesc (98 :: (s'.flatMap escByte ++ 34 :: rest)) =
              some ([8], s'.flatMap escByte ++ 34 :: rest) from rfl]
            dsimp only []
            simpa using parseStrBody_flatMap s' (8 :: acc) rest f hf'
          · by_cases h9 : b = 9
            · subst h9
              show parseStrBody (f + 1) acc ([92, 116] ++ (s'.flatMap escByte ++ 34 :: rest)) = _
              simp only [List.cons_append, List.nil_append, parseStrBody]
              norm_num
              rw [show unesc (116 :: (s'.flatMap escByte ++ 34 :: rest)) =
                some ([9], s'.flatMap escByte ++ 34 :: rest) from rfl]
              dsimp only []
              simpa using parseStrBody_flatMap s' (9 :: acc) rest f hf'
            · by_cases h10 : b = 10
              · subst h10
                show parseStrBody (f + 1) acc ([92, 110] ++ (s'.flatMap escByte ++ 34 :: rest)) = _
                simp only [List.cons_append, List.nil_append, parseStrBody]
                norm_num
                rw [show unesc (110 :: (s'.flatMap escByte ++ 34 :: rest)) =
                  some ([10], s'.flatMap escByte ++ 34 :: rest) from rfl]
                dsimp only []
                simpa using parseStrBody_flatMap s' (10 :: acc) rest f hf'
              · by_cases h12 : b = 12
                · subst h12
                  show parseStrBody (f + 1) acc ([92, 102] ++ (s'.flatMap escByte ++ 34 :: rest)) = _
                  simp only [List.cons_append, List.nil_append, parseStrBody]
                  norm_num
                  rw [show unesc (102 :: (s'.flatMap escByte ++ 34 :: rest)) =
                    some ([12], s'.flatMap escByte ++ 34 :: rest) from rfl]
                  dsimp only []
                  simpa using parseStrBody_flatMap s' (12 :: acc) rest f hf'
                · by_cases h13 : b = 13
                  · subst h13
                    show parseStrBody (f + 1) acc ([92, 114] ++ (s'.flatMap escByte ++ 34 :: rest)) = _
                    simp only [List.cons_append, List.nil_append, parseStrBody]
                    norm_num
                    rw [show unesc (114 :: (s'.flatMap escByte ++ 34 :: rest)) =
                      some ([13], s'.flatMap escByte ++ 34 :: rest) from rfl]
                    dsimp only []
                    simpa using parseStrBody_flatMap s' (13 :: acc) rest f hf'
                  · by_cases hctrl : b < 32
                    · have he : escByte b =
                          [92, 117, 48, 48, hexDigit (b / 16), hexDigit (b % 16)] := by
                        simp [escByte, h34, h92, h8, h9, h10, h12, h13, hctrl]
                      rw [he]
                      simp only [List.cons_append, List.nil_append, parseStrBody]
                      norm_num
                      rw [unesc_ctrl b _ hctrl]
                      dsimp only []
                      simpa using parseStrBody_flatMap s' (b :: acc) rest f hf'
                    · have he : escByte b = [b] := by
                        simp [escByte, h34, h92, h8, h9, h10, h12, h13, hctrl]
                      rw [he]
                      simp only [List.cons_append, List.nil_append, parseStrBody]
                      rw [if_neg h34, if_neg h92, if_neg hctrl]
                      simpa using parseStrBody_flatMap s' (b :: acc) rest f hf'

theorem parseStrBody_plain : ∀ (s acc rest : Bytes) (fuel : Nat),
    s.length + 1 ≤ fuel → strPlain s = true →
    parseStrBody fuel acc (s ++ (34 :: rest)) = some (acc.reverse ++ s, rest)
  | [], acc, rest, fuel, hf, _ => by
    match fuel, hf with
    | f + 1, _ => simp [parseStrBody]
  | b :: s', acc, rest, fuel, hf, hp => by
    match fuel, hf with
    | f + 1, hf =>
      have hf' : s'.length + 1 ≤ f := by simpa using hf
      have hps := hp
      simp only [strPlain, List.all_cons, Bool.and_eq_true, decide_eq_true_eq,
        bne_iff_ne, ne_eq, Bool.not_eq_true', decide_eq_false_iff_not] at hps
      obtain ⟨⟨⟨⟨hb1, hb2⟩, hb3⟩, hb4⟩, hrest⟩ := hps
      have hp' : strPlain s' = true := by
        simp only [strPlain, List.all_cons, Bool.and_eq_true] at hp
        exact hp.2
      simp only [List.cons_append, parseStrBody]
      rw [if_neg hb2, if_neg hb3, if_neg (by omega : ¬ b < 32)]
      simpa using parseStrBody_plain s' (b :: acc) rest f hf' hp'

end SdJwtModel

namespace SdJwtModel

/-! ## Value rendering round-trip: head bytes and fuel accounting -/

theorem escByte_ne_nil (b : Nat) : escByte b ≠ [] := by
  unfold escByte
  split_ifs <;> simp

theorem flatMap_escByte_length (s : Bytes) : s.length ≤ (s.flatMap escByte).length := by
  induction s with
  | nil => simp
  | cons b s' ih =>
    simp only [List.flatMap_cons, List.length_append, List.length_cons]
    have h := List.length_pos.mpr (escByte_ne_nil b)
    omega

theorem render_head_spec (v : Json) : ∃ b tl, v.render = b :: tl ∧ isWsB b = false ∧
    b ≠ 93 := by
  cases v with
  | null => exact ⟨110, _, rfl, by decide, by decide⟩
  | bool bb =>
    cases bb
    · exact ⟨102, _, rfl, by decide, by decide⟩
    · exact ⟨116, _, rfl, by decide, by decide⟩
  | str s => exact ⟨34, _, rfl, by decide, by decide⟩
  | arr es => exact ⟨91, _, rfl, by decide, by decide⟩
  | obj ms => exact ⟨123, _, rfl, by decide, by decide⟩
  | num n =>
    by_cases hn : n < 0
    · exact ⟨45, natDigits n.natAbs [], by simp [Json.render, intBytes, hn],
        by decide, by decide⟩
    · cases hnd : natDigits n.natAbs [] with
      | nil => exact absurd hnd (natDigitsAux_ne_nil _ _ _)
      | cons d tl =>
        have hd : isDigitB d = true := by
          refine natDigitsAux_digits n.natAbs n.natAbs [] (by simp) d ?_
          rw [natDigits] at hnd
          rw [hnd]
          simp
        have hdb : 48 ≤ d ∧ d ≤ 57 := by
          simpa [isDigitB, Bool.and_eq_true, decide_eq_true_eq] using hd
        refine ⟨d, tl, ?_, ?_, ?_⟩
        · simp [Json.render, intBytes, hn, hnd]
        · simp only [isWsB, Bool.or_eq_false_iff, decide_eq_false_iff_not]
          omega
        · omega

theorem parseVal_numHead (fuel : Nat) (b : Nat) (tl : Bytes)
    (hb : b = 45 ∨ (48 ≤ b ∧ b ≤ 57)) :
    parseVal (fuel + 1) (b :: tl) =
      (match parseNum (b :: tl) with
       | some (n, r) => some (Json.num n, r)
       | none => none) := by
  rcases hb with rfl | ⟨h1, h2⟩
  · simp only [parseVal]
    rw [skipWs_cons_of_not_ws 45 tl (by decide)]
    norm_num
  · interval_cases b <;>
    · simp only [parseVal]
      rw [skipWs_cons_of_not_ws _ tl (by decide)]
      norm_num [isDigitB]

end SdJwtModel

namespace SdJwtModel

mutual

theorem fsize_le_render : ∀ (v : Json), Json.fsize v ≤ (Json.render v).length
  | .null => by simp [Json.fsize, Json.render]
  | .bool b => by cases b <;> simp [Json.fsize, Json.render]
  | .num n => by
    have h := List.length_pos.mpr (natDigitsAux_ne_nil n.natAbs n.natAbs [])
    simp only [Json.fsize, Json.render, intBytes, natDigits]
    by_cases hn : n < 0 <;> simp [hn]
    all_goals omega
  | .str s => by
    simp only [Json.fsize, Json.render, renderStr, List.length_cons]
    omega
  | .arr es => by
    have h := fsizeElems_le_renderElems es
    simp only [Json.fsize, Json.render, List.length_cons, List.length_append]
    simp only [List.length_cons, List.length_nil]
    omega
  | .obj ms => by
    have h := fsizeMembers_le_renderMembers ms
    simp only [Json.fsize, Json.render, List.length_cons, List.length_append]
    simp only [List.length_cons, List.length_nil]
    omega

theorem fsizeElems_le_renderElems : ∀ (es : List Json),
    Json.fsizeElems es ≤ (Json.renderElems es).length + 1
  | [] => by simp [Json.fsizeElems]
  | e :: es' => by
    have h1 := fsize_le_render e
    have h2 := fsizeElemsTail_le es'
    simp only [Json.fsizeElems, Json.renderElems, List.length_append]
    omega

theorem fsizeElemsTail_le : ∀ (es : List Json),
    Json.fsizeElems es ≤ (Json.renderElemsTail es).length
  | [] => by simp [Json.fsizeElems, Json.renderElemsTail]
  | e :: es' => by
    have h1 := fsize_le_render e
    have h2 := fsizeElemsTail_le es'
    simp only [Json.fsizeElems, Json.renderElemsTail, List.length_cons,
      List.length_append]
    omega

theorem fsizeMembers_le_renderMembers : ∀ (ms : List (Bytes × Json)),
    Json.fsizeMembers ms ≤ (Json.renderMembers ms).length + 1
  | [] => by simp [Json.fsizeMembers]
  | (k, v) :: ms' => by
    have h1 := fsize_le_render v
    have h2 := fsizeMembersTail_le ms'
    simp only [Json.fsizeMembers, Json.renderMembers, List.length_append,
      List.length_cons]
    omega

theorem fsizeMembersTail_le : ∀ (ms : List (Bytes × Json)),
    Json.fsizeMembers ms ≤ (Json.renderMembersTail ms).length
  | [] => by simp [Json.fsizeMembers, Json.renderMembersTail]
  | (k, v) :: ms' => by
    have h1 := fsize_le_render v
    have h2 := fsizeMembersTail_le ms'
    simp only [Json.fsizeMembers, Json.renderMembersTail, List.length_cons,
      List.length_append]
    omega

end

end SdJwtModel

namespace SdJwtModel

theorem numDelim_elemsTail (es : List Json) (rest : Bytes) :
    numDelim (Json.renderElemsTail es ++ 93 :: rest) = true := by
  cases es <;> simp [Json.renderElemsTail, numDelim, isDigitB]

theorem numDelim_membersTail (ms : List (Bytes × Json)) (rest : Bytes) :
    numDelim (Json.renderMembersTail ms ++ 125 :: rest) = true := by
  cases ms with
  | nil => simp [Json.renderMembersTail, numDelim, isDigitB]
  | cons kv ms' =>
    obtain ⟨k, v⟩ := kv
    simp [Json.renderMembersTail, numDelim, isDigitB]

mutual

/-- Parsing inverts rendering: a rendered value followed by a neutral suffix
parses back to exactly that value, given fuel at least its parser-call
count. -/
theorem rt_val : ∀ (v : Json) (rest : Bytes) (fuel : Nat), Json.fsize v ≤ fuel →
    numDelim rest = true →
    parseVal fuel (Json.render v ++ rest) = some (v, rest)
  | .null, rest, fuel, hf, _ => by
    match fuel, hf with
    | f + 1, _ =>
      simp only [Json.render, List.cons_append, List.nil_append, parseVal]
      rw [skipWs_cons_of_not_ws 110 _ (by decide)]
  | .bool true, rest, fuel, hf, _ => by
    match fuel, hf with
    | f + 1, _ =>
      simp only [Json.render, List.cons_append, List.nil_append, parseVal]
      rw [skipWs_cons_of_not_ws 116 _ (by decide)]
  | .bool false, rest, fuel, hf, _ => by
    match fuel, hf with
    | f + 1, _ =>
      simp only [Json.render, List.cons_append, List.nil_append, parseVal]
      rw [skipWs_cons_of_not_ws 102 _ (by decide)]
  | .num n, rest, fuel, hf, hrest => by
    match fuel, hf with
    | f + 1, _ =>
      by_cases hn : n < 0
      · have heq : Json.render (.num n) ++ rest =
            45 :: (natDigits n.natAbs [] ++ rest) := by
          simp [Json.render, intBytes, hn]
        rw [heq, parseVal_numHead f 45 _ (Or.inl rfl), ← List.cons_append,
          show (45 :: natDigits n.natAbs [] : Bytes) = intBytes n from by
            simp [intBytes, hn],
          parseNum_intBytes n rest hrest]
      · cases hnd : natDigits n.natAbs [] with
        | nil => exact absurd hnd (natDigitsAux_ne_nil _ _ _)
        | cons d tl =>
          have hd : isDigitB d = true := by
            refine natDigitsAux_digits n.natAbs n.natAbs [] (by simp) d ?_
            rw [natDigits] at hnd
            rw [hnd]
            simp
          have hdb : 48 ≤ d ∧ d ≤ 57 := by
            simpa [isDigitB, Bool.and_eq_true, decide_eq_true_eq] using hd
          have heq : Json.render (.num n) ++ rest = d :: (tl ++ rest) := by
            simp [Json.render, intBytes, hn, hnd]
          rw [heq, parseVal_numHead f d _ (Or.inr hdb), ← List.cons_append,
            show (d :: tl : Bytes) = intBytes n from by simp [intBytes, hn, hnd],
            parseNum_intBytes n rest hrest]
  | .str s, rest, fuel, hf, _ => by
    match fuel, hf with
    | f + 1, _ =>
      have heq : Json.render (.str s) ++ rest =
          34 :: (s.flatMap escByte ++ (34 :: rest)) := by
        simp [Json.render, renderStr]
      rw [heq]
      simp only [parseVal]
      rw [skipWs_cons_of_not_ws 34 _ (by decide)]
      dsimp only []
      rw [parseStrBody_flatMap s [] rest _ (by
        have h := flatMap_escByte_length s
        simp only [List.length_append, List.length_cons]
        omega)]
      simp
  | .arr es, rest, fuel, hf, _ => by
    match fuel, hf with
    | f + 1, hf =>
      have hfe : Json.fsizeElems es ≤ f := by
        simp only [Json.fsize] at hf
        omega
      have heq : Json.render (.arr es) ++ rest =
          91 :: (Json.renderElems es ++ (93 :: rest)) := by
        simp [Json.render]
      rw [heq]
      simp only [parseVal]
      rw [skipWs_cons_of_not_ws 91 _ (by decide)]
      dsimp only []
      cases es with
      | nil =>
        simp only [Json.renderElems, List.nil_append]
        rw [skipWs_cons_of_not_ws 93 _ (by decide)]
      | cons e0 es' =>
        obtain ⟨b, tl, hbe, hws, h93⟩ := render_head_spec e0
        have hr : Json.renderElems (e0 :: es') ++ 93 :: rest =
            b :: (tl ++ (Json.renderElemsTail es' ++ 93 :: rest)) := by
          simp [Json.renderElems, hbe]
        rw [hr, skipWs_cons_of_not_ws b _ hws]
        split
        · rename_i r' heqm
          exact absurd (by injection heqm : b = 93) h93
        · rw [← hr, rt_elems (e0 :: es') rest f hfe (by simp)]
  | .obj ms, rest, fuel, hf, _ => by
    match fuel, hf with
    | f + 1, hf =>
      have hfm : Json.fsizeMembers ms ≤ f := by
        simp only [Json.fsize] at hf
        omega
      have heq : Json.render (.obj ms) ++ rest =
          123 :: (Json.renderMembers ms ++ (125 :: rest)) := by
        simp [Json.render]
      rw [heq]
      simp only [parseVal]
      rw [skipWs_cons_of_not_ws 123 _ (by decide)]
      dsimp only []
      cases ms with
      | nil =>
        simp only [Json.renderMembers, List.nil_append]
        rw [skipWs_cons_of_not_ws 125 _ (by decide)]
      | cons kv ms' =>
        obtain ⟨k, v⟩ := kv
        have hr : Json.renderMembers ((k, v) :: ms') ++ 125 :: rest =
            34 :: ((k.flatMap escByte) ++
              (34 :: (58 :: (Json.render v ++
                (Json.renderMembersTail ms' ++ 125 :: rest))))) := by
          simp [Json.renderMembers, renderStr]
        rw [hr, skipWs_cons_of_not_ws 34 _ (by decide)]
        dsimp only []
        rw [← hr, rt_members ((k, v) :: ms') rest f hfm (by simp)]

theorem rt_elems : ∀ (es : List Json) (rest : Bytes) (fuel : Nat),
    Json.fsizeElems es ≤ fuel → es ≠ [] →
    parseElems fuel (Json.renderElems es ++ (93 :: rest)) = some (es, rest)
  | [], _, _, _, hne => absurd rfl hne
  | e0 :: es', rest, fuel, hf, _ => by
    match fuel, hf with
    | g + 1, hf =>
      have hf0 : Json.fsize e0 ≤ g := by
        simp only [Json.fsizeElems] at hf
        omega
      have hftail : Json.fsizeElems es' ≤ g := by
        simp only [Json.fsizeElems] at hf
        omega
      have hcs : Json.renderElems (e0 :: es') ++ 93 :: rest =
          Json.render e0 ++ (Json.renderElemsTail es' ++ 93 :: rest) := by
        simp [Json.renderElems]
      simp only [parseElems]
      rw [hcs, rt_val e0 _ g hf0 (numDelim_elemsTail es' rest)]
      dsimp only []
      cases es' with
      | nil =>
        simp only [Json.renderElemsTail, List.nil_append]
        rw [skipWs_cons_of_not_ws 93 _ (by decide)]
      | cons e1 es'' =>
        simp only [Json.renderElemsTail, List.cons_append, List.append_assoc]
        rw [skipWs_cons_of_not_ws 44 _ (by decide)]
        dsimp only []
        rw [show Json.render e1 ++ (Json.renderElemsTail es'' ++ 93 :: rest) =
            Json.renderElems (e1 :: es'') ++ (93 :: rest) from by
          simp [Json.renderElems],
          rt_elems (e1 :: es'') rest g hftail (by simp)]

theorem rt_members : ∀ (ms : List (Bytes × Json)) (rest : Bytes) (fuel : Nat),
    Json.fsizeMembers ms ≤ fuel → ms ≠ [] →
    parseMembers fuel (Json.renderMembers ms ++ (125 :: rest)) = some (ms, rest)
  | [], _, _, _, hne => absurd rfl hne
  | (k, v) :: ms', rest, fuel, hf, _ => by
    match fuel, hf with
    | g + 1, hf =>
      have hfv : Json.fsize v ≤ g := by
        simp only [Json.fsizeMembers] at hf
        omega
      have hftail : Json.fsizeMembers ms' ≤ g := by
        simp only [Json.fsizeMembers] at hf
        omega
      have hcs : Json.renderMembers ((k, v) :: ms') ++ 125 :: rest =
          34 :: ((k.flatMap escByte) ++
            (34 :: (58 :: (Json.render v ++
              (Json.renderMembersTail ms' ++ 125 :: rest))))) := by
        simp [Json.renderMembers, renderStr]
      simp only [parseMembers]
      rw [hcs, skipWs_cons_of_not_ws 34 _ (by decide)]
      dsimp only []
      rw [parseStrBody_flatMap k [] _ _ (by
        have h := flatMap_escByte_length k
        simp only [List.length_append, List.length_cons]
        omega)]
      dsimp only []
      rw [skipWs_cons_of_not_ws 58 _ (by decide)]
      dsimp only []
      rw [rt_val v _ g hfv (numDelim_membersTail ms' rest)]
      dsimp only []
      cases ms' with
      | nil =>
        simp only [Json.renderMembersTail, List.nil_append]
        rw [skipWs_cons_of_not_ws 125 _ (by decide)]
        simp
      | cons kv2 ms'' =>
        obtain ⟨k2, v2⟩ := kv2
        simp only [Json.renderMembersTail, List.cons_append, List.append_assoc]
        rw [skipWs_cons_of_not_ws 44 _ (by decide)]
        dsimp only []
        rw [show renderStr k2 ++ (58 :: (Json.render v2 ++
            (Json.renderMembersTail ms'' ++ 125 :: rest))) =
            Json.renderMembers ((k2, v2) :: ms'') ++ (125 :: rest) from by
          simp [Json.renderMembers],
          rt_members ((k2, v2) :: ms'') rest g hftail (by simp)]
        simp

end

end SdJwtModel

namespace SdJwtModel

/-- `serde_json` round trip: parsing a rendered value yields the value. -/
theorem jsonParse_render (v : Json) : jsonParse (Json.render v) = some v := by
  unfold jsonParse
  have h := rt_val v [] ((Json.render v).length + 1)
    (by have := fsize_le_render v; omega) (by simp [numDelim])
  rw [List.append_nil] at h
  rw [h]
  simp [skipWs]

/-! ## Base64 round-trip -/

theorem b64Encode_eq_map (u : Bool) : ∀ (bs : Bytes),
    b64Encode u bs = (b64Sextets bs).map (b64Char u)
  | [] => rfl
  | [_] => rfl
  | [_, _] => rfl
  | a :: b :: c :: rest => by
    simp only [b64Encode, b64Sextets, List.map_cons]
    rw [b64Encode_eq_map u rest]

theorem b64UrlVal_b64Char : ∀ i, i < 64 → b64UrlVal (b64Char true i) = some i := by
  decide

theorem mapM_b64UrlVal_map : ∀ (l : List Nat), (∀ i ∈ l, i < 64) →
    (l.map (b64Char true)).mapM b64UrlVal = some l
  | [], _ => rfl
  | x :: xs, h => by
    simp only [List.map_cons, List.mapM_cons]
    rw [b64UrlVal_b64Char x (h x (by simp))]
    rw [mapM_b64UrlVal_map xs (fun i hi => h i (by simp [hi]))]
    rfl

theorem b64Sextets_lt : ∀ (bs : Bytes), (∀ b ∈ bs, b < 256) →
    ∀ i ∈ b64Sextets bs, i < 64
  | [], _ => by simp [b64Sextets]
  | [a], h => by
    have ha := h a (by simp)
    simp only [b64Sextets, List.mem_cons, List.mem_singleton]
    rintro i (rfl | rfl | hi)
    · omega
    · omega
    · simp at hi
  | [a, b], h => by
    have ha := h a (by simp)
    have hb := h b (by simp)
    simp only [b64Sextets, List.mem_cons, List.mem_singleton]
    rintro i (rfl | rfl | rfl | hi)
    · omega
    · omega
    · omega
    · simp at hi
  | a :: b :: c :: rest, h => by
    have ha := h a (by simp)
    have hb := h b (by simp)
    have hc := h c (by simp)
    intro i hi
    simp only [b64Sextets, List.mem_cons] at hi
    rcases hi with rfl | rfl | rfl | rfl | hi
    · omega
    · omega
    · omega
    · omega
    · exact b64Sextets_lt rest
        (fun x hx => h x (by simp [List.mem_cons, hx])) i hi

theorem b64Regroup_sextets : ∀ (bs : Bytes), (∀ b ∈ bs, b < 256) →
    b64Regroup (b64Sextets bs) = some bs
  | [], _ => rfl
  | [a], h => by
    have h1 : (a % 4 * 16) % 16 = 0 := by omega
    simp [b64Sextets, b64Regroup, h1]
    omega
  | [a, b], h => by
    have hb := h b (by simp)
    have h1 : (b % 16 * 4) % 4 = 0 := by omega
    simp [b64Sextets, b64Regroup, h1]
    omega
  | a :: b :: c :: rest, h => by
    have hb := h b (by simp)
    have hc := h c (by simp)
    have hrec := b64Regroup_sextets rest
      (fun x hx => h x (by simp [List.mem_cons, hx]))
    simp only [b64Sextets, b64Regroup, hrec]
    have h1 : a / 4 * 4 + (a % 4 * 16 + b / 16) / 16 = a := by omega
    have h2 : (a % 4 * 16 + b / 16) % 16 * 16 + (b % 16 * 4 + c / 64) / 4 = b := by
      omega
    have h3 : (b % 16 * 4 + c / 64) % 4 * 64 + c % 64 = c := by omega
    rw [h1, h2, h3]

theorem b64_url_roundtrip (bs : Bytes) (h : ∀ b ∈ bs, b < 256) :
    b64UrlDecode (b64UrlEncode bs) = some bs := by
  unfold b64UrlDecode
  rw [show b64UrlEncode bs = (b64Sextets bs).map (b64Char true) from
    b64Encode_eq_map true bs]
  rw [mapM_b64UrlVal_map _ (b64Sextets_lt bs h)]
  exact b64Regroup_sextets bs h

theorem b64Std_eq_url (bs : Bytes)
    (h43 : (43 : Nat) ∉ b64StdEncode bs) (h47 : (47 : Nat) ∉ b64StdEncode bs) :
    b64StdEncode bs = b64UrlEncode bs := by
  have hs : b64StdEncode bs = (b64Sextets bs).map (b64Char false) :=
    b64Encode_eq_map false bs
  have hu : b64UrlEncode bs = (b64Sextets bs).map (b64Char true) :=
    b64Encode_eq_map true bs
  rw [hs, hu]
  refine List.map_congr_left ?_
  intro i hi
  have hm43 : b64Char false i ≠ 43 := by
    intro he
    exact h43 (by rw [hs]; exact he ▸ List.mem_map_of_mem _ hi)
  have hm47 : b64Char false i ≠ 47 := by
    intro he
    exact h47 (by rw [hs]; exact he ▸ List.mem_map_of_mem _ hi)
  by_cases ha : i < 26
  · simp [b64Char, ha]
  · by_cases hb : i < 52
    · simp [b64Char, ha, hb]
    · by_cases hc : i < 62
      · simp [b64Char, ha, hb, hc]
      · by_cases hd : i = 62
        · exact absurd (by simp [b64Char, ha, hb, hc, hd]) hm43
        · exact absurd (by simp [b64Char, ha, hb, hc, hd]) hm47

end SdJwtModel

namespace SdJwtModel

theorem hexDigit_lt256 (m : Nat) (hm : m < 16) : hexDigit m < 256 := by
  have H : ∀ m, m < 16 → hexDigit m < 256 := by decide
  exact H m hm

theorem escByte_lt256 (x : Nat) (hx : x < 256) : ∀ b ∈ escByte x, b < 256 := by
  intro b hb
  unfold escByte at hb
  split_ifs at hb <;> simp at hb
  · omega
  · omega
  · omega
  · omega
  · omega
  · omega
  · omega
  · have h1 := hexDigit_lt256 (x / 16) (by omega)
    have h2 := hexDigit_lt256 (x % 16) (by omega)
    rcases hb with rfl | rfl | rfl | rfl | rfl | rfl <;> omega
  · omega

mutual

theorem render_lt256 : ∀ (v : Json), Json.strsLt256 v = true →
    ∀ b ∈ Json.render v, b < 256
  | .null, _ => by
    intro b hb
    simp [Json.render] at hb
    omega
  | .bool bb, _ => by
    intro b hb
    cases bb <;> simp [Json.render] at hb <;> omega
  | .num n, _ => by
    intro b hb
    by_cases hn : n < 0 <;> simp [Json.render, intBytes, hn] at hb
    · rcases hb with rfl | hb
      · omega
      · have hd := natDigitsAux_digits n.natAbs n.natAbs [] (by simp) b hb
        simp only [isDigitB, Bool.and_eq_true, decide_eq_true_eq] at hd
        omega
    · have hd := natDigitsAux_digits n.natAbs n.natAbs [] (by simp) b hb
      simp only [isDigitB, Bool.and_eq_true, decide_eq_true_eq] at hd
      omega
  | .str s, h => by
    intro b hb
    simp only [Json.strsLt256, List.all_eq_true, decide_eq_true_eq] at h
    simp only [Json.render, renderStr, List.mem_cons, List.mem_append,
      List.mem_singleton] at hb
    rcases hb with rfl | hb | rfl | h0
    · omega
    · obtain ⟨x, hx, hbx⟩ := List.mem_flatMap.mp hb
      exact escByte_lt256 x (h x hx) b hbx
    · omega
    · simp at h0
  | .arr es, h => by
    intro b hb
    simp only [Json.render, List.mem_cons, List.mem_append,
      List.mem_singleton] at hb
    rcases hb with rfl | hb | rfl | h0
    · omega
    · exact renderElems_lt256 es (by simpa [Json.strsLt256] using h) b hb
    · omega
    · simp at h0
  | .obj ms, h => by
    intro b hb
    simp only [Json.render, List.mem_cons, List.mem_append,
      List.mem_singleton] at hb
    rcases hb with rfl | hb | rfl | h0
    · omega
    · exact renderMembers_lt256 ms (by simpa [Json.strsLt256] using h) b hb
    · omega
    · simp at h0

theorem renderElems_lt256 : ∀ (es : List Json), Json.strsLt256E es = true →
    ∀ b ∈ Json.renderElems es, b < 256
  | [], _ => by simp [Json.renderElems]
  | e :: es', h => by
    intro b hb
    simp only [Json.strsLt256E, Bool.and_eq_true] at h
    simp only [Json.renderElems, List.mem_append] at hb
    rcases hb with hb | hb
    · exact render_lt256 e h.1 b hb
    · exact renderElemsTail_lt256 es' h.2 b hb

theorem renderElemsTail_lt256 : ∀ (es : List Json), Json.strsLt256E es = true →
    ∀ b ∈ Json.renderElemsTail es, b < 256
  | [], _ => by simp [Json.renderElemsTail]
  | e :: es', h => by
    intro b hb
    simp only [Json.strsLt256E, Bool.and_eq_true] at h
    simp only [Json.renderElemsTail, List.mem_cons, List.mem_append] at hb
    rcases hb with rfl | hb | hb
    · omega
    · exact render_lt256 e h.1 b hb
    · exact renderElemsTail_lt256 es' h.2 b hb

theorem renderMembers_lt256 : ∀ (ms : List (Bytes × Json)),
    Json.strsLt256M ms = true → ∀ b ∈ Json.renderMembers ms, b < 256
  | [], _ => by simp [Json.renderMembers]
  | (k, v) :: ms', h => by
    intro b hb
    simp only [Json.strsLt256M, Bool.and_eq_true] at h
    simp only [Json.renderMembers, List.mem_append, List.mem_cons] at hb
    rcases hb with hb | rfl | hb | hb
    · simp only [renderStr, List.mem_cons, List.mem_append,
        List.mem_singleton] at hb
      rcases hb with rfl | hb | rfl | h0
      · omega
      · obtain ⟨x, hx, hbx⟩ := List.mem_flatMap.mp hb
        have hk : ∀ y ∈ k, y < 256 := by
          have := h.1.1
          simpa [List.all_eq_true] using this
        exact escByte_lt256 x (hk x hx) b hbx
      · omega
      · simp at h0
    · omega
    · exact render_lt256 v h.1.2 b hb
    · exact renderMembersTail_lt256 ms' h.2 b hb

theorem renderMembersTail_lt256 : ∀ (ms : List (Bytes × Json)),
    Json.strsLt256M ms = true → ∀ b ∈ Json.renderMembersTail ms, b < 256
  | [], _ => by simp [Json.renderMembersTail]
  | (k, v) :: ms', h => by
    intro b hb
    simp only [Json.strsLt256M, Bool.and_eq_true] at h
    simp only [Json.renderMembersTail, List.mem_cons, List.mem_append] at hb
    rcases hb with rfl | hb | rfl | hb | hb
    · omega
    · simp only [renderStr, List.mem_cons, List.mem_append,
        List.mem_singleton] at hb
      rcases hb with rfl | hb | rfl | h0
      · omega
      · obtain ⟨x, hx, hbx⟩ := List.mem_flatMap.mp hb
        have hk : ∀ y ∈ k, y < 256 := by
          have := h.1.1
          simpa [List.all_eq_true] using this
        exact escByte_lt256 x (hk x hx) b hbx
      · omega
      · simp at h0
    · omega
    · exact render_lt256 v h.1.2 b hb
    · exact renderMembersTail_lt256 ms' h.2 b hb

end

end SdJwtModel

namespace SdJwtModel

theorem fsize_pos : ∀ (v : Json), 1 ≤ Json.fsize v
  | .null => le_refl 1
  | .bool _ => le_refl 1
  | .num _ => le_refl 1
  | .str _ => le_refl 1
  | .arr _ => by simp [Json.fsize]
  | .obj _ => by simp [Json.fsize]

theorem skipWs_cons_ws (b : Nat) (tl : Bytes) (hb : isWsB b = true) :
    skipWs (b :: tl) = skipWs tl := by
  simp [skipWs, hb]

theorem parseVal_ws (f : Nat) (b : Nat) (tl : Bytes) (hb : isWsB b = true) :
    parseVal (f + 1) (b :: tl) = parseVal (f + 1) tl := by
  simp only [parseVal]
  rw [skipWs_cons_ws b tl hb]

theorem parseVal_str_plain (s : Bytes) (rest : Bytes) (f : Nat)
    (hs : strPlain s = true) :
    parseVal (f + 1) (34 :: (s ++ (34 :: rest))) = some (.str s, rest) := by
  simp only [parseVal]
  rw [skipWs_cons_of_not_ws 34 _ (by decide)]
  dsimp only []
  rw [parseStrBody_plain s [] rest _ (by
    simp only [List.length_append, List.length_cons]
    omega) hs]
  simp

theorem parseElems_disc3 (salt name : Bytes) (v : Json) (c : Nat)
    (hs : strPlain salt = true) (hn : strPlain name = true)
    (hv : Json.fsize v ≤ c) :
    parseElems (c + 3) (34 :: (salt ++ (34 :: 44 :: 32 :: 34 :: (name ++
      (34 :: 44 :: 32 :: (Json.render v ++ [93])))))) =
      some ([.str salt, .str name, v], []) := by
  obtain ⟨c', rfl⟩ : ∃ c', c = c' + 1 := ⟨c - 1, by have := fsize_pos v; omega⟩
  have h3 : parseElems (c' + 2) (32 :: (Json.render v ++ [93])) =
      some ([v], []) := by
    obtain ⟨g, hg⟩ : ∃ g, g = c' + 1 := ⟨_, rfl⟩
    rw [show c' + 2 = g + 1 from by omega]
    simp only [parseElems]
    rw [hg]
    rw [parseVal_ws c' 32 _ (by decide)]
    rw [rt_val v [93] (c' + 1) (by omega) (by simp [numDelim, isDigitB])]
    dsimp only []
    rw [skipWs_cons_of_not_ws 93 _ (by decide)]
  have h2 : parseElems (c' + 3) (32 :: 34 :: (name ++
      (34 :: 44 :: 32 :: (Json.render v ++ [93])))) =
      some ([.str name, v], []) := by
    obtain ⟨g, hg⟩ : ∃ g, g = c' + 2 := ⟨_, rfl⟩
    rw [show c' + 3 = g + 1 from by omega]
    simp only [parseElems]
    rw [hg]
    rw [show parseVal (c' + 2) (32 :: 34 :: (name ++
        (34 :: 44 :: 32 :: (Json.render v ++ [93])))) =
      parseVal (c' + 2) (34 :: (name ++
        (34 :: 44 :: 32 :: (Json.render v ++ [93])))) from
      parseVal_ws (c' + 1) 32 _ (by decide)]
    rw [parseVal_str_plain name _ (c' + 1) hn]
    dsimp only []
    rw [skipWs_cons_of_not_ws 44 _ (by decide)]
    dsimp only []
    rw [h3]
  obtain ⟨g, hg⟩ : ∃ g, g = c' + 3 := ⟨_, rfl⟩
  rw [show c' + 1 + 3 = g + 1 from by omega]
  simp only [parseElems]
  rw [hg]
  rw [parseVal_str_plain salt _ (c' + 2) hs]
  dsimp only []
  rw [skipWs_cons_of_not_ws 44 _ (by decide)]
  dsimp only []
  rw [h2]

theorem parseElems_disc2 (salt : Bytes) (v : Json) (c : Nat)
    (hs : strPlain salt = true) (hv : Json.fsize v ≤ c) :
    parseElems (c + 2) (34 :: (salt ++ (34 :: 44 :: 32 ::
      (Json.render v ++ [93])))) = some ([.str salt, v], []) := by
  obtain ⟨c', rfl⟩ : ∃ c', c = c' + 1 := ⟨c - 1, by have := fsize_pos v; omega⟩
  have h3 : parseElems (c' + 2) (32 :: (Json.render v ++ [93])) =
      some ([v], []) := by
    obtain ⟨g, hg⟩ : ∃ g, g = c' + 1 := ⟨_, rfl⟩
    rw [show c' + 2 = g + 1 from by omega]
    simp only [parseElems]
    rw [hg]
    rw [parseVal_ws c' 32 _ (by decide)]
    rw [rt_val v [93] (c' + 1) (by omega) (by simp [numDelim, isDigitB])]
    dsimp only []
    rw [skipWs_cons_of_not_ws 93 _ (by decide)]
  obtain ⟨g, hg⟩ : ∃ g, g = c' + 2 := ⟨_, rfl⟩
  rw [show c' + 1 + 2 = g + 1 from by omega]
  simp only [parseElems]
  rw [hg]
  rw [parseVal_str_plain salt _ (c' + 1) hs]
  dsimp only []
  rw [skipWs_cons_of_not_ws 44 _ (by decide)]
  dsimp only []
  rw [h3]

end SdJwtModel

namespace SdJwtModel

theorem strPlain_mem (s : Bytes) (hs : strPlain s = true) :
    ∀ x ∈ s, 32 ≤ x ∧ x ≠ 34 ∧ x ≠ 92 ∧ x < 256 := by
  intro x hx
  simp only [strPlain, List.all_eq_true, Bool.and_eq_true, decide_eq_true_eq,
    bne_iff_ne, ne_eq, Bool.not_eq_true', decide_eq_false_iff_not] at hs
  have h := hs x hx
  tauto

theorem parseVal_disc3 (salt name : Bytes) (v : Json) (L : Nat)
    (hs : strPlain salt = true) (hn : strPlain name = true)
    (hL : Json.fsize v + 3 ≤ L) :
    parseVal (L + 1) (91 :: 34 :: (salt ++ (34 :: 44 :: 32 :: 34 :: (name ++
      (34 :: 44 :: 32 :: (Json.render v ++ [93])))))) =
      some (.arr [.str salt, .str name, v], []) := by
  obtain ⟨c, rfl⟩ : ∃ c, L = c + 3 := ⟨L - 3, by omega⟩
  simp only [parseVal]
  rw [skipWs_cons_of_not_ws 91 _ (by decide)]
  dsimp only []
  rw [skipWs_cons_of_not_ws 34 _ (by decide)]
  dsimp only []
  rw [parseElems_disc3 salt name v c hs hn (by omega)]

theorem parseVal_disc2 (salt : Bytes) (v : Json) (L : Nat)
    (hs : strPlain salt = true) (hL : Json.fsize v + 2 ≤ L) :
    parseVal (L + 1) (91 :: 34 :: (salt ++ (34 :: 44 :: 32 ::
      (Json.render v ++ [93])))) = some (.arr [.str salt, v], []) := by
  obtain ⟨c, rfl⟩ : ∃ c, L = c + 2 := ⟨L - 2, by omega⟩
  simp only [parseVal]
  rw [skipWs_cons_of_not_ws 91 _ (by decide)]
  dsimp only []
  rw [skipWs_cons_of_not_ws 34 _ (by decide)]
  dsimp only []
  rw [parseElems_disc2 salt v c hs (by omega)]

theorem jsonParse_disclosure3 (salt name : Bytes) (v : Json)
    (hs : strPlain salt = true) (hn : strPlain name = true) :
    jsonParse ([91, 34] ++ salt ++ [34, 44, 32, 34] ++ name ++ [34, 44, 32] ++
      Json.render v ++ [93]) = some (.arr [.str salt, .str name, v]) := by
  unfold jsonParse
  simp only [List.cons_append, List.nil_append, List.append_assoc]
  rw [parseVal_disc3 salt name v _ hs hn (by
    simp only [List.length_cons, List.length_append, List.length_nil]
    have := fsize_le_render v
    omega)]
  simp [skipWs]

theorem jsonParse_disclosure2 (salt : Bytes) (v : Json)
    (hs : strPlain salt = true) :
    jsonParse ([91, 34] ++ salt ++ [34, 44, 32] ++ Json.render v ++ [93]) =
      some (.arr [.str salt, v]) := by
  unfold jsonParse
  simp only [List.cons_append, List.nil_append, List.append_assoc]
  rw [parseVal_disc2 salt v _ hs (by
    simp only [List.length_cons, List.length_append, List.length_nil]
    have := fsize_le_render v
    omega)]
  simp [skipWs]

/-- Claim C2 (amended): `Disclosure::new` encodes the formatted JSON array
with the *standard*-alphabet unpadded base64, not the URL-safe one the claim
states (see the counterexample).  Whenever that standard encoding happens to
contain neither `+` nor `/` — so it coincides with the URL-safe encoding —
and salt and claim name splice into the JSON string literals unchanged
(printable bytes, no quote or backslash), `Disclosure::parse` inverts it:
the parse succeeds and returns the very same disclosure. -/
theorem claim_C2 (salt : Bytes) (cn : Option Bytes) (v : Json)
    (hs : strPlain salt = true)
    (hn : ∀ nm, cn = some nm → strPlain nm = true)
    (hv : Json.strsLt256 v = true)
    (h43 : (43 : Nat) ∉ (Disclosure.new salt cn v).disclosure)
    (h47 : (47 : Nat) ∉ (Disclosure.new salt cn v).disclosure) :
    Disclosure.parse (Disclosure.new salt cn v).disclosure =
      .ok (Disclosure.new salt cn v) := by
  cases cn with
  | some name =>
    have hnm := hn name rfl
    have hdisc : (Disclosure.new salt (some name) v).disclosure =
        b64StdEncode ([91, 34] ++ salt ++ [34, 44, 32, 34] ++ name ++
          [34, 44, 32] ++ Json.render v ++ [93]) := rfl
    have hlt : ∀ b ∈ ([91, 34] ++ salt ++ [34, 44, 32, 34] ++ name ++
        [34, 44, 32] ++ Json.render v ++ [93] : Bytes), b < 256 := by
      intro b hb
      simp only [List.mem_append, List.mem_cons, List.mem_singleton,
        List.not_mem_nil, or_false] at hb
      rcases hb with ((((((rfl | rfl) | hb) | (rfl | rfl | rfl | rfl)) | hb) |
        (rfl | rfl | rfl)) | hb) | rfl
      · omega
      · omega
      · exact (strPlain_mem salt hs b hb).2.2.2
      · omega
      · omega
      · omega
      · omega
      · exact (strPlain_mem name hnm b hb).2.2.2
      · omega
      · omega
      · omega
      · exact render_lt256 v hv b hb
      · omega
    unfold Disclosure.parse
    rw [hdisc, b64Std_eq_url _ (hdisc ▸ h43) (hdisc ▸ h47),
      b64_url_roundtrip _ hlt]
    dsimp only []
    rw [jsonParse_disclosure3 salt name v hs hnm]
    dsimp only []
    rw [← b64Std_eq_url _ (hdisc ▸ h43) (hdisc ▸ h47)]
    rfl
  | none =>
    have hdisc : (Disclosure.new salt none v).disclosure =
        b64StdEncode ([91, 34] ++ salt ++ [34, 44, 32] ++
          Json.render v ++ [93]) := rfl
    have hlt : ∀ b ∈ ([91, 34] ++ salt ++ [34, 44, 32] ++
        Json.render v ++ [93] : Bytes), b < 256 := by
      intro b hb
      simp only [List.mem_append, List.mem_cons, List.mem_singleton,
        List.not_mem_nil, or_false] at hb
      rcases hb with ((((rfl | rfl) | hb) | (rfl | rfl | rfl)) | hb) | rfl
      · omega
      · omega
      · exact (strPlain_mem salt hs b hb).2.2.2
      · omega
      · omega
      · omega
      · exact render_lt256 v hv b hb
      · omega
    unfold Disclosure.parse
    rw [hdisc, b64Std_eq_url _ (hdisc ▸ h43) (hdisc ▸ h47),
      b64_url_roundtrip _ hlt]
    dsimp only []
    rw [jsonParse_disclosure2 salt v hs]
    dsimp only []
    rw [← b64Std_eq_url _ (hdisc ▸ h43) (hdisc ▸ h47)]
    rfl

/-- Claim C2 witness: the disclosure `["abc", "n", 5]` round-trips — its wire
contains no `+` or `/`, and `parse` recovers the same fields. -/
theorem claim_C2_witness :
    ((43 : Nat) ∉
      (Disclosure.new (bytes ("abc")) (some (bytes ("n"))) (Json.num 5)).disclosure) ∧
    ((47 : Nat) ∉
      (Disclosure.new (bytes ("abc")) (some (bytes ("n"))) (Json.num 5)).disclosure) ∧
    Disclosure.parse
        (Disclosure.new (bytes ("abc")) (some (bytes ("n"))) (Json.num 5)).disclosure =
      .ok (Disclosure.new (bytes ("abc")) (some (bytes ("n"))) (Json.num 5)) :=
  ⟨by decide, by decide,
    claim_C2 (bytes ("abc")) (some (bytes ("n"))) (Json.num 5) (by decide)
      (fun nm h => by injection h with h2; exact h2 ▸ (by decide))
      (by decide) (by decide) (by decide)⟩

end SdJwtModel

namespace SdJwtModel

/-! ## Association-list algebra for the encoder-decoder identity (C1) -/

theorem containsKey_of_mem (o : JObj) (k : Bytes) (v : Json) (h : (k, v) ∈ o) :
    JObj.containsKey o k = true := by
  induction o with
  | nil => simp at h
  | cons hd tl ih =>
    obtain ⟨k0, v0⟩ := hd
    rcases List.mem_cons.mp h with heq | hmem
    · injection heq with h1 h2
      simp [JObj.containsKey, h1]
    · simp [JObj.containsKey, ih hmem]

theorem containsKey_false_forall (o : JObj) (k : Bytes)
    (h : JObj.containsKey o k = false) : ∀ kv ∈ o, kv.1 ≠ k := by
  intro kv hkv heq
  obtain ⟨k1, v1⟩ := kv
  subst heq
  rw [containsKey_of_mem o k1 v1 hkv] at h
  cases h

theorem insert_lookup_self (o : JObj) (k : Bytes) (v : Json)
    (h : JObj.lookup o k = some v) : JObj.insert o k v = o := by
  induction o with
  | nil => simp [JObj.lookup] at h
  | cons hd tl ih =>
    obtain ⟨k0, v0⟩ := hd
    by_cases h0 : k0 = k
    · simp only [JObj.lookup, if_pos h0] at h
      injection h with h1
      simp [JObj.insert, h0, h1]
    · simp only [JObj.lookup, if_neg h0] at h
      simp [JObj.insert, h0, ih h]

theorem keysND_of_cleanVals : ∀ (l : List (Bytes × Json)),
    cleanVals l = true → keysND l = true
  | [], _ => rfl
  | (k, v) :: rest, h => by
    simp only [cleanVals, Bool.and_eq_true] at h
    simp only [keysND, Bool.and_eq_true]
    exact ⟨h.1.1, keysND_of_cleanVals rest h.2⟩

theorem cleanVals_lookup_self : ∀ (l : List (Bytes × Json)), keysND l = true →
    ∀ kv ∈ l, JObj.lookup l kv.1 = some kv.2
  | [], _, kv, hkv => by simp at hkv
  | (k, v) :: rest, h, kv, hkv => by
    simp only [keysND, Bool.and_eq_true, Bool.not_eq_true'] at h
    rcases List.mem_cons.mp hkv with heq | hmem
    · subst heq
      simp [JObj.lookup]
    · have hne : k ≠ kv.1 := by
        intro he
        have := containsKey_of_mem rest kv.1 kv.2 (by simpa using hmem)
        rw [← he] at this
        rw [this] at h
        exact absurd h.1 (by simp)
      simp only [JObj.lookup, if_neg hne]
      exact cleanVals_lookup_self rest h.2 kv hmem

end SdJwtModel

namespace SdJwtModel

theorem clean_obj_entries (o : JObj) (hc : cleanVal (.obj o) = true) :
    ∀ kv ∈ o, kv.1 ≠ sdKey ∧ JObj.lookup o kv.1 = some kv.2 := by
  simp only [cleanVal, Bool.and_eq_true, Bool.not_eq_true'] at hc
  intro kv hkv
  exact ⟨containsKey_false_forall o sdKey hc.1 kv hkv,
    cleanVals_lookup_self o (keysND_of_cleanVals o hc.2) kv hkv⟩

mutual

/-- A clean value decodes to itself, whatever the recursion callback and the
disclosure map are: nothing in it triggers a substitution. -/
theorem decode_value_core_clean (jump : Jump) (m : DMap) :
    ∀ (v : Json) (p : List Bytes), cleanVal v = true →
      decode_value_core jump m v p = .ok (plainDecoded v, p)
  | .obj sub, p, hc => by
    simp only [decode_value_core, plainDecoded]
    rw [decode_entries_clean jump m sub sub p
      (by simp only [cleanVal, Bool.and_eq_true] at hc; exact hc.2)
      (clean_obj_entries sub hc)]
  | .arr a, p, hc => by
    simp only [decode_value_core, plainDecoded]
    rw [decode_array_core_clean jump m a p (by simpa [cleanVal] using hc)]
  | .null, p, _ => rfl
  | .bool b, p, _ => rfl
  | .num n, p, _ => rfl
  | .str s, p, _ => rfl

/-- The entry walk leaves a clean output untouched when every walked entry is
already present in the output with its own value. -/
theorem decode_entries_clean (jump : Jump) (m : DMap) :
    ∀ (l : List (Bytes × Json)) (out : JObj) (p : List Bytes),
      cleanVals l = true →
      (∀ kv ∈ l, kv.1 ≠ sdKey ∧ JObj.lookup out kv.1 = some kv.2) →
      decode_entries jump m l out p = .ok (out, p)
  | [], out, p, _, _ => rfl
  | (k, v) :: rest, out, p, hc, hl => by
    have hk := (hl (k, v) (by simp)).1
    have hlook := (hl (k, v) (by simp)).2
    simp only [cleanVals, Bool.and_eq_true] at hc
    have htail : ∀ kv ∈ rest, kv.1 ≠ sdKey ∧ JObj.lookup out kv.1 = some kv.2 :=
      fun kv hkv => hl kv (by simp [hkv])
    cases v with
    | obj sub =>
      simp only [decode_entries]
      rw [if_neg hk, decode_value_core_clean jump m (.obj sub) p hc.1.2]
      dsimp only [plainDecoded]
      have hins : (if sub = [] then out else JObj.insert out k (.obj sub)) = out := by
        split
        · rfl
        · exact insert_lookup_self out k (.obj sub) hlook
      rw [hins]
      exact decode_entries_clean jump m rest out p hc.2 htail
    | arr a =>
      simp only [decode_entries]
      rw [if_neg hk, decode_value_core_clean jump m (.arr a) p hc.1.2]
      dsimp only [plainDecoded]
      have hins : (if a = [] then out else JObj.insert out k (.arr a)) = out := by
        split
        · rfl
        · exact insert_lookup_self out k (.arr a) hlook
      rw [hins]
      exact decode_entries_clean jump m rest out p hc.2 htail
    | null =>
      simp only [decode_entries]
      rw [if_neg hk, decode_value_core_clean jump m .null p hc.1.2]
      exact decode_entries_clean jump m rest out p hc.2 htail
    | bool b =>
      simp only [decode_entries]
      rw [if_neg hk, decode_value_core_clean jump m (.bool b) p hc.1.2]
      exact decode_entries_clean jump m rest out p hc.2 htail
    | num n =>
      simp only [decode_entries]
      rw [if_neg hk, decode_value_core_clean jump m (.num n) p hc.1.2]
      exact decode_entries_clean jump m rest out p hc.2 htail
    | str s =>
      simp only [decode_entries]
      rw [if_neg hk, decode_value_core_clean jump m (.str s) p hc.1.2]
      exact decode_entries_clean jump m rest out p hc.2 htail

/-- The array walk copies a clean array unchanged. -/
theorem decode_array_core_clean (jump : Jump) (m : DMap) :
    ∀ (a : List Json) (p : List Bytes), cleanElems a = true →
      decode_array_core jump m a p = .ok (a, p)
  | [], p, _ => rfl
  | el :: rest, p, hc => by
    simp only [cleanElems, Bool.and_eq_true] at hc
    cases el with
    | obj o =>
      have hhead := hc.1.1
      dsimp only [] at hhead
      cases ho : o.head? with
      | none => rw [ho] at hhead; simp at hhead
      | some kv0 =>
        rw [ho] at hhead
        simp only [decide_eq_true_eq] at hhead
        simp only [decode_array_core]
        rw [ho]
        dsimp only []
        rw [if_neg hhead]
        rw [decode_entries_clean jump m o o p
          (by
            have := hc.1.2
            simp only [cleanVal, Bool.and_eq_true] at this
            exact this.2)
          (clean_obj_entries o hc.1.2)]
        dsimp only []
        rw [decode_array_core_clean jump m rest p hc.2]
    | arr a2 =>
      simp only [decode_array_core]
      rw [decode_array_core_clean jump m a2 p (by simpa [cleanVal] using hc.1.2)]
      dsimp only []
      rw [decode_array_core_clean jump m rest p hc.2]
    | null =>
      simp only [decode_array_core]
      rw [decode_array_core_clean jump m rest p hc.2]
    | bool b =>
      simp only [decode_array_core]
      rw [decode_array_core_clean jump m rest p hc.2]
    | num n =>
      simp only [decode_array_core]
      rw [decode_array_core_clean jump m rest p hc.2]
    | str s =>
      simp only [decode_array_core]
      rw [decode_array_core_clean jump m rest p hc.2]

end

end SdJwtModel

namespace SdJwtModel

end SdJwtModel

namespace SdJwtModel

end SdJwtModel

namespace SdJwtModel

end SdJwtModel

namespace SdJwtModel

mutual

/-- Map equality is reflexive on clean values (distinct keys make the key
lookups find the entries themselves). -/
theorem jeq_refl_clean : ∀ (v : Json), cleanVal v = true → Json.jeq v v = true
  | .null, _ => rfl
  | .bool b, _ => by simp [Json.jeq]
  | .num n, _ => by simp [Json.jeq]
  | .str s, _ => by simp [Json.jeq]
  | .arr xs, hc => by
    simp only [Json.jeq]
    exact jeq_arrEq_refl xs (by simpa [cleanVal] using hc)
  | .obj ms, hc => by
    have hc' : cleanVals ms = true := by
      simp only [cleanVal, Bool.and_eq_true] at hc
      exact hc.2
    simp only [Json.jeq, Bool.and_eq_true, decide_eq_true_eq]
    exact ⟨trivial, jeq_memEq_refl ms ms hc'
      (cleanVals_lookup_self ms (keysND_of_cleanVals ms hc'))⟩

/-- `arrEq` is reflexive on clean elements. -/
theorem jeq_arrEq_refl : ∀ (a : List Json), cleanElems a = true →
    Json.jeq.arrEq a a = true
  | [], _ => rfl
  | el :: rest, hc => by
    simp only [cleanElems, Bool.and_eq_true] at hc
    simp only [Json.jeq.arrEq, Bool.and_eq_true]
    exact ⟨jeq_refl_clean el hc.1.2, jeq_arrEq_refl rest hc.2⟩

/-- `memEq` holds when every walked entry is found unchanged in the other
object. -/
theorem jeq_memEq_refl : ∀ (xs ys : List (Bytes × Json)), cleanVals xs = true →
    (∀ kv ∈ xs, JObj.lookup ys kv.1 = some kv.2) →
    Json.jeq.memEq ys xs = true
  | [], _, _, _ => rfl
  | (k, v) :: rest, ys, hc, hl => by
    simp only [cleanVals, Bool.and_eq_true] at hc
    simp only [Json.jeq.memEq]
    rw [hl (k, v) (by simp)]
    dsimp only []
    rw [jeq_refl_clean v hc.1.2]
    rw [jeq_memEq_refl rest ys hc.2 (fun kv hkv => hl kv (by simp [hkv]))]
    rfl

end

end SdJwtModel

namespace SdJwtModel

end SdJwtModel

namespace SdJwtModel

end SdJwtModel

namespace SdJwtModel

end SdJwtModel

namespace SdJwtModel

end SdJwtModel

namespace SdJwtModel

end SdJwtModel

namespace SdJwtModel

end SdJwtModel
